import Mathlib

/-!
Shallow embedding of the pngme chunk core (src/chunk_type.rs, src/chunk.rs).

Bytes are modelled as `Nat` values below 256 and `u32` values as `Nat`
values below 2^32; byte sequences are `List Nat`.  Fallible Rust
operations returning `Result` are modelled with `Except`.
-/

namespace Pngme

/-- The largest value representable by a `u32`. -/
def UINT32_MAX : Nat := 4294967295

/-- The `ChunkTypeError` enum from src/chunk_type.rs. -/
inductive ChunkTypeError where
  | InvalidByte (b : Nat)
  | InvalidLength
deriving DecidableEq

/-- The `ChunkError` enum from src/chunk.rs.  `UTF8Error` carries the offending
payload bytes, standing for the wrapped `FromUtf8Error` diagnostic. -/
inductive ChunkError where
  | UTF8Error (bs : List Nat)
  | ChunkTypeError (e : ChunkTypeError)
  | InvalidCRC (found expected : Nat)
  | LengthMismatch (found expected : Nat)
  | ChunkTooShort
deriving DecidableEq

/-- The `std::num::TryFromIntError` type, the error of `u32::try_from`. -/
structure TryFromIntError where
deriving DecidableEq

/-- Rust `u32::try_from` on a `usize` value: succeeds exactly when the value
fits in 32 bits. -/
def u32_try_from (n : Nat) : Except TryFromIntError Nat :=
  if n ≤ UINT32_MAX then .ok n else .error ⟨⟩

/-- The byte-range check of src/chunk_type.rs: the two `RangeInclusive`
values `65u8..=90` and `97u8..=122` (A-Z and a-z). -/
def isAsciiLetterByte (b : Nat) : Bool :=
  (65 ≤ b && b ≤ 90) || (97 ≤ b && b ≤ 122)

/-- The `ChunkType` struct from src/chunk_type.rs: a `[u8; 4]`, modelled as four
byte fields. -/
structure ChunkType where
  b0 : Nat
  b1 : Nat
  b2 : Nat
  b3 : Nat
deriving DecidableEq

/-- The `bytes` array of a `ChunkType`, as a list. -/
def ChunkType.bytes (ct : ChunkType) : List Nat :=
  [ct.b0, ct.b1, ct.b2, ct.b3]

/-- The scan loop of `ChunkType::try_from` and `ChunkType::is_valid`:
first byte of the list outside the ASCII letter ranges, if any. -/
def firstInvalidByte : List Nat → Option Nat
  | [] => none
  | b :: rest => if !(isAsciiLetterByte b) then some b else firstInvalidByte rest

/-- Rust `ChunkType::try_from` (`impl TryFrom<[u8; 4]>` in src/chunk_type.rs):
reject on the first byte outside the ASCII letter ranges. -/
def ChunkType.tryFrom (b0 b1 b2 b3 : Nat) : Except ChunkTypeError ChunkType :=
  match firstInvalidByte [b0, b1, b2, b3] with
  | some b => .error (.InvalidByte b)
  | none => .ok ⟨b0, b1, b2, b3⟩

/-- Rust `ChunkType::from_str` (src/chunk_type.rs).  A Rust `&str` is its
UTF-8 byte content; `s.len()` is the byte count. -/
def ChunkType.fromStr (s : List Nat) : Except ChunkTypeError ChunkType :=
  if s.length ≠ 4 then .error .InvalidLength
  else ChunkType.tryFrom (s.getD 0 0) (s.getD 1 0) (s.getD 2 0) (s.getD 3 0)

/-- Rust `ChunkType::is_valid` (src/chunk_type.rs): every byte in the ASCII
letter ranges, and the third byte's bit 5 clear. -/
def ChunkType.is_valid (ct : ChunkType) : Bool :=
  if !(ct.bytes.all isAsciiLetterByte) then false
  else if ct.b2 &&& 32 == 32 then false
  else true

/-- Rust `ChunkType::is_critical` (src/chunk_type.rs). -/
def ChunkType.is_critical (ct : ChunkType) : Bool :=
  ct.b0 &&& 32 == 0

/-- Rust `ChunkType::is_public` (src/chunk_type.rs). -/
def ChunkType.is_public (ct : ChunkType) : Bool :=
  ct.b1 &&& 32 == 0

/-- Rust `ChunkType::is_reserved_bit_valid` (src/chunk_type.rs). -/
def ChunkType.is_reserved_bit_valid (ct : ChunkType) : Bool :=
  ct.b2 &&& 32 == 0

/-- Rust `ChunkType::is_safe_to_copy` (src/chunk_type.rs). -/
def ChunkType.is_safe_to_copy (ct : ChunkType) : Bool :=
  ct.b3 &&& 32 == 32

/-! ## CRC-32/IEEE

`crc::crc32::checksum_ieee` from the `crc` crate: the standard reflected
CRC-32 with polynomial `0xEDB88320`, initial value `0xFFFFFFFF` and
final xor `0xFFFFFFFF`. -/

/-- The reflected CRC-32/IEEE polynomial. -/
def CRC32_POLY : Nat := 0xEDB88320

/-- One bit round of the reflected CRC-32 algorithm. -/
def crcRound (s : Nat) : Nat :=
  if s % 2 = 1 then (s >>> 1) ^^^ CRC32_POLY else s >>> 1

/-- Feed one byte into the CRC state. -/
def crcByteStep (s b : Nat) : Nat :=
  crcRound^[8] (s ^^^ b)

/-- The `checksum_ieee` function of the `crc` crate over a byte sequence. -/
def checksum_ieee (data : List Nat) : Nat :=
  (data.foldl crcByteStep 0xFFFFFFFF) ^^^ 0xFFFFFFFF

/-! ## Chunk -/

/-- The `Chunk` struct from src/chunk.rs. -/
structure Chunk where
  length : Nat
  chunk_type : ChunkType
  data : List Nat
  crc : Nat
deriving DecidableEq

/-- Rust `u32::to_be_bytes`. -/
def u32_to_be_bytes (n : Nat) : List Nat :=
  [n / 16777216 % 256, n / 65536 % 256, n / 256 % 256, n % 256]

/-- Rust `u32::from_be_bytes` on a 4-byte list. -/
def u32_from_be_bytes (l : List Nat) : Nat :=
  l.foldl (fun acc b => acc * 256 + b) 0

/-- Rust `Chunk::try_from` (`impl TryFrom<&[u8]>` in src/chunk.rs). -/
def Chunk.try_from (bytes : List Nat) : Except ChunkError Chunk :=
  let total_length := bytes.length
  if total_length < 12 then .error .ChunkTooShort
  else
    let length := u32_from_be_bytes (bytes.take 4)
    match ChunkType.tryFrom (bytes.getD 4 0) (bytes.getD 5 0)
        (bytes.getD 6 0) (bytes.getD 7 0) with
    | .error e => .error (.ChunkTypeError e)
    | .ok chunk_type =>
      let crc := u32_from_be_bytes (bytes.drop (total_length - 4))
      let data := (bytes.drop 8).take (total_length - 12)
      let computed_crc := checksum_ieee (chunk_type.bytes ++ data)
      if computed_crc ≠ crc then .error (.InvalidCRC computed_crc crc)
      else .ok ⟨length, chunk_type, data, crc⟩

/-- Rust `Chunk::new` (src/chunk.rs). -/
def Chunk.new (chunk_type : ChunkType) (data : List Nat) :
    Except TryFromIntError Chunk :=
  match u32_try_from data.length with
  | .error e => .error e
  | .ok length =>
    .ok ⟨length, chunk_type, data, checksum_ieee (chunk_type.bytes ++ data)⟩

/-- Rust `Chunk::as_bytes` (src/chunk.rs). -/
def Chunk.as_bytes (c : Chunk) : List Nat :=
  u32_to_be_bytes c.length ++ c.chunk_type.bytes ++ c.data
    ++ u32_to_be_bytes c.crc

/-! ## UTF-8

`Chunk::data_as_string` delegates to `String::from_utf8` from the Rust
standard library, which is not part of src/. -/

/-- A UTF-8 continuation byte (`0x80..=0xBF`). -/
def isUtf8Cont (b : Nat) : Bool := 128 ≤ b && b ≤ 191

/-- Modelled from the spec: one step of the UTF-8 validation performed
by Rust's `String::from_utf8` (standard library, not part of src/):
given a lead byte and the remaining bytes, decode one Unicode scalar
value and return it with the rest of the input.  The byte patterns are
those of RFC 3629: one-byte `00..7F`, two-byte lead `C2..DF`,
three-byte lead `E0..EF` (with the `E0`/`ED` restrictions on the
second byte that exclude overlong forms and surrogates), four-byte
lead `F0..F4` (with the `F0`/`F4` restrictions that exclude overlong
forms and values above `0x10FFFF`). -/
def utf8DecodeOne (b : Nat) (l : List Nat) : Option (Nat × List Nat) :=
  if b ≤ 127 then some (b, l)
  else if 194 ≤ b && b ≤ 223 then
    if 1 ≤ l.length && isUtf8Cont (l.getD 0 0) then
      some ((b - 192) * 64 + (l.getD 0 0 - 128), l.drop 1)
    else none
  else if 224 ≤ b && b ≤ 239 then
    if 2 ≤ l.length &&
        (if b = 224 then 160 ≤ l.getD 0 0 && l.getD 0 0 ≤ 191
         else if b = 237 then 128 ≤ l.getD 0 0 && l.getD 0 0 ≤ 159
         else isUtf8Cont (l.getD 0 0)) && isUtf8Cont (l.getD 1 0) then
      some ((b - 224) * 4096 + (l.getD 0 0 - 128) * 64 + (l.getD 1 0 - 128),
        l.drop 2)
    else none
  else if 240 ≤ b && b ≤ 244 then
    if 3 ≤ l.length &&
        (if b = 240 then 144 ≤ l.getD 0 0 && l.getD 0 0 ≤ 191
         else if b = 244 then 128 ≤ l.getD 0 0 && l.getD 0 0 ≤ 143
         else isUtf8Cont (l.getD 0 0)) && isUtf8Cont (l.getD 1 0)
        && isUtf8Cont (l.getD 2 0) then
      some ((b - 240) * 262144 + (l.getD 0 0 - 128) * 4096
        + (l.getD 1 0 - 128) * 64 + (l.getD 2 0 - 128), l.drop 3)
    else none
  else none

/-- Modelled from the spec: the full UTF-8 validation of Rust's
`String::from_utf8` (standard library, not part of src/), as a decoder
returning the sequence of Unicode scalar values when the bytes are
valid UTF-8 and `none` otherwise. -/
def utf8Decode (bs : List Nat) : Option (List Nat) :=
  match bs with
  | [] => some []
  | b :: l =>
    match h : utf8DecodeOne b l with
    | some (v, l2) => (utf8Decode l2).map (fun cs => v :: cs)
    | none => none
termination_by bs.length
decreasing_by
  have hle : ∀ (b : Nat) (l : List Nat) (v : Nat) (l2 : List Nat),
      utf8DecodeOne b l = some (v, l2) → l2.length ≤ l.length := by
    intro b l v l2 h
    unfold utf8DecodeOne at h
    split_ifs at h
    all_goals
      first
      | exact Option.noConfusion h
      | (have hp := Option.some.inj h
         injection hp with h1 h2
         subst h2
         try simp only [List.length_drop]
         omega)
  simp only [List.length_cons]
  have := hle _ _ _ _ h
  omega

/-- Rust `Chunk::data_as_string` (src/chunk.rs): `String::from_utf8` on a
copy of the payload, the failure wrapped in `ChunkError::UTF8Error`.
The success value is the decoded scalar-value sequence of the string. -/
def Chunk.data_as_string (c : Chunk) : Except ChunkError (List Nat) :=
  match utf8Decode c.data with
  | some s => .ok s
  | none => .error (.UTF8Error c.data)

/-- A Unicode scalar value: below `0x110000` and not a surrogate. -/
def IsScalar (c : Nat) : Prop := c < 1114112 ∧ ¬(55296 ≤ c ∧ c ≤ 57343)

/-- The UTF-8 encoding of one Unicode scalar value (spec-side notion,
used to characterize "the payload bytes are valid UTF-8"). -/
def utf8EncodeChar (c : Nat) : List Nat :=
  if c ≤ 127 then [c]
  else if c ≤ 2047 then [192 + c / 64, 128 + c % 64]
  else if c ≤ 65535 then [224 + c / 4096, 128 + c / 64 % 64, 128 + c % 64]
  else [240 + c / 262144, 128 + c / 4096 % 64, 128 + c / 64 % 64, 128 + c % 64]

/-- Validity of a byte sequence as UTF-8: it is the UTF-8 encoding of some
sequence of Unicode scalar values. -/
def IsValidUtf8 (bs : List Nat) : Prop :=
  ∃ cs : List Nat, (∀ c ∈ cs, IsScalar c) ∧ cs.flatMap utf8EncodeChar = bs

/-- Spec-side decode-success condition (from the words of the spec):
the buffer is at least 12 bytes long, bytes [4,8) are ASCII letters, and
the big-endian u32 in the last 4 bytes equals the CRC-32/IEEE computed
over bytes [4,8) concatenated with bytes [8, total_len-4).  To be
compared with `Chunk.try_from`. -/
def DecodeCond (bytes : List Nat) : Prop :=
  12 ≤ bytes.length ∧
  (∀ b ∈ [bytes.getD 4 0, bytes.getD 5 0, bytes.getD 6 0, bytes.getD 7 0],
    isAsciiLetterByte b = true) ∧
  checksum_ieee ((bytes.drop 4).take 4 ++ (bytes.drop 8).take (bytes.length - 12))
    = u32_from_be_bytes (bytes.drop (bytes.length - 4))

/-! ## Lemmas: 32-bit big-endian encoding -/

theorem u32_to_be_bytes_length (n : Nat) : (u32_to_be_bytes n).length = 4 := rfl

theorem u32_to_be_bytes_lt (n : Nat) : ∀ x ∈ u32_to_be_bytes n, x < 256 := by
  simp only [u32_to_be_bytes, List.mem_cons, List.not_mem_nil, or_false]
  rintro x (rfl | rfl | rfl | rfl) <;> omega

theorem u32_from_be_of_to_be {n : Nat} (h : n ≤ UINT32_MAX) :
    u32_from_be_bytes (u32_to_be_bytes n) = n := by
  simp only [u32_from_be_bytes, u32_to_be_bytes, List.foldl]
  simp only [UINT32_MAX] at h
  omega

theorem u32_to_be_of_from_be {a b c d : Nat}
    (ha : a < 256) (hb : b < 256) (hc : c < 256) (hd : d < 256) :
    u32_to_be_bytes (u32_from_be_bytes [a, b, c, d]) = [a, b, c, d] := by
  simp only [u32_from_be_bytes, u32_to_be_bytes, List.foldl, List.cons.injEq, and_true]
  omega

theorem u32_from_be_le {a b c d : Nat}
    (ha : a < 256) (hb : b < 256) (hc : c < 256) (hd : d < 256) :
    u32_from_be_bytes [a, b, c, d] ≤ UINT32_MAX := by
  simp only [u32_from_be_bytes, List.foldl, UINT32_MAX]
  omega

/-! ## Lemmas: type-tag byte scanning -/

theorem isAsciiLetterByte_lt {b : Nat} (h : isAsciiLetterByte b = true) : b < 256 := by
  simp only [isAsciiLetterByte, Bool.or_eq_true, Bool.and_eq_true, decide_eq_true_eq] at h
  omega

theorem firstInvalidByte_eq_none_iff (l : List Nat) :
    firstInvalidByte l = none ↔ ∀ b ∈ l, isAsciiLetterByte b = true := by
  induction l with
  | nil => simp [firstInvalidByte]
  | cons b rest ih =>
    simp only [firstInvalidByte, List.mem_cons]
    by_cases hb : isAsciiLetterByte b = true
    · simp [hb, ih]
    · constructor
      · intro hnone
        rw [if_pos (by simp [hb])] at hnone
        exact absurd hnone (by simp)
      · intro hall
        exact absurd (hall b (Or.inl rfl)) hb

theorem firstInvalidByte_isSome {l : List Nat}
    (h : ¬ ∀ b ∈ l, isAsciiLetterByte b = true) : ∃ b, firstInvalidByte l = some b := by
  rcases hfi : firstInvalidByte l with _ | b
  · exact absurd ((firstInvalidByte_eq_none_iff l).mp hfi) h
  · exact ⟨b, rfl⟩

theorem tryFrom_of_letters {t0 t1 t2 t3 : Nat}
    (h : ∀ b ∈ [t0, t1, t2, t3], isAsciiLetterByte b = true) :
    ChunkType.tryFrom t0 t1 t2 t3 = .ok ⟨t0, t1, t2, t3⟩ := by
  unfold ChunkType.tryFrom
  rw [(firstInvalidByte_eq_none_iff _).mpr h]

theorem tryFrom_ok_inv {t0 t1 t2 t3 : Nat} {ct : ChunkType}
    (h : ChunkType.tryFrom t0 t1 t2 t3 = .ok ct) :
    ct = ⟨t0, t1, t2, t3⟩ ∧ ∀ b ∈ [t0, t1, t2, t3], isAsciiLetterByte b = true := by
  unfold ChunkType.tryFrom at h
  rcases hfi : firstInvalidByte [t0, t1, t2, t3] with _ | b
  · rw [hfi] at h
    exact ⟨(Except.ok.inj h).symm, (firstInvalidByte_eq_none_iff _).mp hfi⟩
  · rw [hfi] at h
    exact absurd h (by simp)

theorem tryFrom_error_of_invalid {t0 t1 t2 t3 b : Nat}
    (h : firstInvalidByte [t0, t1, t2, t3] = some b) :
    ChunkType.tryFrom t0 t1 t2 t3 = .error (.InvalidByte b) := by
  unfold ChunkType.tryFrom
  rw [h]

/-! ## Lemmas: buffer decomposition -/

theorem exists_four (l : List Nat) (h : l.length = 4) :
    ∃ a b c d, l = [a, b, c, d] := by
  obtain ⟨a, l, rfl⟩ := List.exists_cons_of_length_pos (l := l) (by omega)
  simp only [List.length_cons] at h
  obtain ⟨b, l, rfl⟩ := List.exists_cons_of_length_pos (l := l) (by omega)
  simp only [List.length_cons] at h
  obtain ⟨c, l, rfl⟩ := List.exists_cons_of_length_pos (l := l) (by omega)
  simp only [List.length_cons] at h
  obtain ⟨d, l, rfl⟩ := List.exists_cons_of_length_pos (l := l) (by omega)
  simp only [List.length_cons] at h
  have : l = [] := List.eq_nil_of_length_eq_zero (by omega)
  exact ⟨a, b, c, d, by rw [this]⟩

theorem exists_decomp12 (bytes : List Nat) (h : 12 ≤ bytes.length) :
    ∃ (a0 a1 a2 a3 t0 t1 t2 t3 : Nat) (P C : List Nat),
      bytes = a0 :: a1 :: a2 :: a3 :: t0 :: t1 :: t2 :: t3 :: (P ++ C) ∧
      C.length = 4 := by
  obtain ⟨a0, l, rfl⟩ := List.exists_cons_of_length_pos (l := bytes) (by omega)
  simp only [List.length_cons] at h
  obtain ⟨a1, l, rfl⟩ := List.exists_cons_of_length_pos (l := l) (by omega)
  simp only [List.length_cons] at h
  obtain ⟨a2, l, rfl⟩ := List.exists_cons_of_length_pos (l := l) (by omega)
  simp only [List.length_cons] at h
  obtain ⟨a3, l, rfl⟩ := List.exists_cons_of_length_pos (l := l) (by omega)
  simp only [List.length_cons] at h
  obtain ⟨t0, l, rfl⟩ := List.exists_cons_of_length_pos (l := l) (by omega)
  simp only [List.length_cons] at h
  obtain ⟨t1, l, rfl⟩ := List.exists_cons_of_length_pos (l := l) (by omega)
  simp only [List.length_cons] at h
  obtain ⟨t2, l, rfl⟩ := List.exists_cons_of_length_pos (l := l) (by omega)
  simp only [List.length_cons] at h
  obtain ⟨t3, l, rfl⟩ := List.exists_cons_of_length_pos (l := l) (by omega)
  simp only [List.length_cons] at h
  refine ⟨a0, a1, a2, a3, t0, t1, t2, t3, l.take (l.length - 4), l.drop (l.length - 4),
    by rw [List.take_append_drop], ?_⟩
  simp only [List.length_drop]
  omega

/-! ## Lemmas: the shape of `Chunk.try_from` on a framed buffer -/

theorem try_from_concat (a0 a1 a2 a3 t0 t1 t2 t3 : Nat) (P C : List Nat)
    (hC : C.length = 4) :
    Chunk.try_from (a0 :: a1 :: a2 :: a3 :: t0 :: t1 :: t2 :: t3 :: (P ++ C)) =
      match ChunkType.tryFrom t0 t1 t2 t3 with
      | .error e => .error (.ChunkTypeError e)
      | .ok ct =>
        if checksum_ieee ([t0, t1, t2, t3] ++ P) ≠ u32_from_be_bytes C then
          .error (.InvalidCRC (checksum_ieee ([t0, t1, t2, t3] ++ P))
            (u32_from_be_bytes C))
        else
          .ok ⟨u32_from_be_bytes [a0, a1, a2, a3], ct, P, u32_from_be_bytes C⟩ := by
  have hlen : (a0 :: a1 :: a2 :: a3 :: t0 :: t1 :: t2 :: t3 :: (P ++ C)).length
      = 12 + P.length := by
    simp [hC]
    omega
  have hdropN : (a0 :: a1 :: a2 :: a3 :: t0 :: t1 :: t2 :: t3 :: (P ++ C)).drop
      (12 + P.length - 4) = C := by
    have h8 : 12 + P.length - 4 = 8 + P.length := by omega
    rw [h8, ← List.drop_drop]
    show (P ++ C).drop P.length = C
    exact List.drop_left P C
  have hpay : ((a0 :: a1 :: a2 :: a3 :: t0 :: t1 :: t2 :: t3 :: (P ++ C)).drop 8).take
      (12 + P.length - 12) = P := by
    show ((P ++ C)).take (12 + P.length - 12) = P
    have : 12 + P.length - 12 = P.length := by omega
    rw [this]
    exact List.take_left P C
  simp only [Chunk.try_from, hlen, hdropN, hpay]
  rw [if_neg (by omega)]
  have hg4 : (a0 :: a1 :: a2 :: a3 :: t0 :: t1 :: t2 :: t3 :: (P ++ C)).getD 4 0 = t0 := rfl
  have hg5 : (a0 :: a1 :: a2 :: a3 :: t0 :: t1 :: t2 :: t3 :: (P ++ C)).getD 5 0 = t1 := rfl
  have hg6 : (a0 :: a1 :: a2 :: a3 :: t0 :: t1 :: t2 :: t3 :: (P ++ C)).getD 6 0 = t2 := rfl
  have hg7 : (a0 :: a1 :: a2 :: a3 :: t0 :: t1 :: t2 :: t3 :: (P ++ C)).getD 7 0 = t3 := rfl
  have htake : (a0 :: a1 :: a2 :: a3 :: t0 :: t1 :: t2 :: t3 :: (P ++ C)).take 4
      = [a0, a1, a2, a3] := rfl
  rw [hg4, hg5, hg6, hg7, htake]
  rcases hct : ChunkType.tryFrom t0 t1 t2 t3 with e | ct
  · rfl
  · obtain ⟨rfl, -⟩ := tryFrom_ok_inv hct
    rfl

/-! ## Lemmas: CRC-32 state bounds and injectivity

The single-bit (indeed single-byte) error detection of C5 rests on the
fact that feeding a byte into the CRC state is injective both in the
state and in the byte. -/

theorem xor_right_inj {a b c : Nat} (h : a ^^^ c = b ^^^ c) : a = b := by
  have h2 := congrArg (fun x => x ^^^ c) h
  simpa [Nat.xor_assoc] using h2

theorem xor_left_inj {a b c : Nat} (h : c ^^^ a = c ^^^ b) : a = b := by
  apply xor_right_inj (c := c)
  rwa [Nat.xor_comm c a, Nat.xor_comm c b] at h

theorem crcRound_lt {s : Nat} (h : s < 2 ^ 32) : crcRound s < 2 ^ 32 := by
  unfold crcRound
  split
  · exact Nat.xor_lt_two_pow (by rw [Nat.shiftRight_eq_div_pow]; omega)
      (by norm_num [CRC32_POLY])
  · rw [Nat.shiftRight_eq_div_pow]
    omega

theorem crcRound_lt_of_even {s : Nat} (h : s < 2 ^ 32) (he : s % 2 = 0) :
    crcRound s < 2 ^ 31 := by
  unfold crcRound
  rw [if_neg (by omega), Nat.shiftRight_eq_div_pow]
  omega

theorem crcRound_ge_of_odd {s : Nat} (h : s < 2 ^ 32) (ho : s % 2 = 1) :
    2 ^ 31 ≤ crcRound s := by
  unfold crcRound
  rw [if_pos ho]
  have h31 : s >>> 1 < 2 ^ 31 := by
    rw [Nat.shiftRight_eq_div_pow]
    omega
  refine Nat.testBit_implies_ge (i := 31) ?_
  rw [Nat.testBit_xor, Nat.testBit_lt_two_pow h31]
  decide

theorem crcRound_inj {s t : Nat} (hs : s < 2 ^ 32) (ht : t < 2 ^ 32)
    (h : crcRound s = crcRound t) : s = t := by
  rcases Nat.mod_two_eq_zero_or_one s with hse | hse <;>
    rcases Nat.mod_two_eq_zero_or_one t with hte | hte
  · unfold crcRound at h
    rw [if_neg (by omega), if_neg (by omega), Nat.shiftRight_eq_div_pow,
      Nat.shiftRight_eq_div_pow] at h
    omega
  · have h1 := crcRound_lt_of_even hs hse
    have h2 := crcRound_ge_of_odd ht hte
    omega
  · have h1 := crcRound_ge_of_odd hs hse
    have h2 := crcRound_lt_of_even ht hte
    omega
  · unfold crcRound at h
    rw [if_pos hse, if_pos hte] at h
    have h3 := xor_right_inj h
    rw [Nat.shiftRight_eq_div_pow, Nat.shiftRight_eq_div_pow] at h3
    omega

theorem crcRound_iter_lt (n : Nat) {s : Nat} (h : s < 2 ^ 32) :
    crcRound^[n] s < 2 ^ 32 := by
  induction n generalizing s with
  | zero => simpa using h
  | succ n ih =>
    rw [Function.iterate_succ_apply]
    exact ih (crcRound_lt h)

theorem crcRound_iter_inj (n : Nat) {s t : Nat} (hs : s < 2 ^ 32) (ht : t < 2 ^ 32)
    (h : crcRound^[n] s = crcRound^[n] t) : s = t := by
  induction n generalizing s t with
  | zero => simpa using h
  | succ n ih =>
    rw [Function.iterate_succ_apply, Function.iterate_succ_apply] at h
    exact crcRound_inj hs ht (ih (crcRound_lt hs) (crcRound_lt ht) h)

theorem crcByteStep_lt {s b : Nat} (hs : s < 2 ^ 32) (hb : b < 256) :
    crcByteStep s b < 2 ^ 32 :=
  crcRound_iter_lt 8 (Nat.xor_lt_two_pow hs (by omega))

theorem crcByteStep_inj_state {s t b : Nat} (hs : s < 2 ^ 32) (ht : t < 2 ^ 32)
    (hb : b < 256) (h : crcByteStep s b = crcByteStep t b) : s = t :=
  xor_right_inj (crcRound_iter_inj 8 (Nat.xor_lt_two_pow hs (by omega))
    (Nat.xor_lt_two_pow ht (by omega)) h)

theorem crcByteStep_inj_byte {s b b' : Nat} (hs : s < 2 ^ 32) (hb : b < 256)
    (hb' : b' < 256) (hne : b ≠ b') : crcByteStep s b ≠ crcByteStep s b' := by
  intro h
  exact hne (xor_left_inj (crcRound_iter_inj 8 (Nat.xor_lt_two_pow hs (by omega))
    (Nat.xor_lt_two_pow hs (by omega)) h))

theorem foldl_crcByteStep_lt (m : List Nat) (hm : ∀ b ∈ m, b < 256) {s : Nat}
    (hs : s < 2 ^ 32) : m.foldl crcByteStep s < 2 ^ 32 := by
  induction m generalizing s with
  | nil => simpa using hs
  | cons b rest ih =>
    rw [List.foldl_cons]
    exact ih (fun x hx => hm x (List.mem_cons_of_mem b hx))
      (crcByteStep_lt hs (hm b (List.mem_cons_self b rest)))

theorem foldl_crcByteStep_inj (m : List Nat) (hm : ∀ b ∈ m, b < 256) {s t : Nat}
    (hs : s < 2 ^ 32) (ht : t < 2 ^ 32) (hne : s ≠ t) :
    m.foldl crcByteStep s ≠ m.foldl crcByteStep t := by
  induction m generalizing s t with
  | nil => simpa using hne
  | cons b rest ih =>
    rw [List.foldl_cons, List.foldl_cons]
    have hb := hm b (List.mem_cons_self b rest)
    exact ih (fun x hx => hm x (List.mem_cons_of_mem b hx))
      (crcByteStep_lt hs hb) (crcByteStep_lt ht hb)
      (fun hcol => hne (crcByteStep_inj_state hs ht hb hcol))

theorem checksum_ieee_lt (m : List Nat) (hm : ∀ b ∈ m, b < 256) :
    checksum_ieee m < 2 ^ 32 := by
  unfold checksum_ieee
  exact Nat.xor_lt_two_pow (foldl_crcByteStep_lt m hm (by norm_num)) (by norm_num)

theorem checksum_ieee_le (m : List Nat) (hm : ∀ b ∈ m, b < 256) :
    checksum_ieee m ≤ UINT32_MAX := by
  have := checksum_ieee_lt m hm
  simp only [UINT32_MAX]
  omega

theorem checksum_ieee_ne_of_byte_change (pre suf : List Nat) {b b' : Nat}
    (hpre : ∀ x ∈ pre, x < 256) (hsuf : ∀ x ∈ suf, x < 256)
    (hb : b < 256) (hb' : b' < 256) (hne : b ≠ b') :
    checksum_ieee (pre ++ b :: suf) ≠ checksum_ieee (pre ++ b' :: suf) := by
  unfold checksum_ieee
  intro h
  have h2 := xor_right_inj h
  rw [List.foldl_append, List.foldl_append, List.foldl_cons, List.foldl_cons] at h2
  have hs : pre.foldl crcByteStep 4294967295 < 2 ^ 32 :=
    foldl_crcByteStep_lt pre hpre (by norm_num)
  exact foldl_crcByteStep_inj suf hsuf (crcByteStep_lt hs hb) (crcByteStep_lt hs hb')
    (crcByteStep_inj_byte hs hb hb' hne) h2

/-! ## Lemmas: decode success characterization -/

theorem decodeCond_concat (a0 a1 a2 a3 t0 t1 t2 t3 : Nat) (P C : List Nat)
    (hC : C.length = 4) :
    DecodeCond (a0 :: a1 :: a2 :: a3 :: t0 :: t1 :: t2 :: t3 :: (P ++ C)) ↔
      ((∀ b ∈ [t0, t1, t2, t3], isAsciiLetterByte b = true) ∧
        checksum_ieee ([t0, t1, t2, t3] ++ P) = u32_from_be_bytes C) := by
  unfold DecodeCond
  have hlen : (a0 :: a1 :: a2 :: a3 :: t0 :: t1 :: t2 :: t3 :: (P ++ C)).length
      = 12 + P.length := by
    simp [hC]
    omega
  have hdropN : (a0 :: a1 :: a2 :: a3 :: t0 :: t1 :: t2 :: t3 :: (P ++ C)).drop
      (12 + P.length - 4) = C := by
    have h8 : 12 + P.length - 4 = 8 + P.length := by omega
    rw [h8, ← List.drop_drop]
    show (P ++ C).drop P.length = C
    exact List.drop_left P C
  have hpay : ((a0 :: a1 :: a2 :: a3 :: t0 :: t1 :: t2 :: t3 :: (P ++ C)).drop 8).take
      (12 + P.length - 12) = P := by
    show ((P ++ C)).take (12 + P.length - 12) = P
    have h12 : 12 + P.length - 12 = P.length := by omega
    rw [h12]
    exact List.take_left P C
  have hg4 : (a0 :: a1 :: a2 :: a3 :: t0 :: t1 :: t2 :: t3 :: (P ++ C)).getD 4 0 = t0 := rfl
  have hg5 : (a0 :: a1 :: a2 :: a3 :: t0 :: t1 :: t2 :: t3 :: (P ++ C)).getD 5 0 = t1 := rfl
  have hg6 : (a0 :: a1 :: a2 :: a3 :: t0 :: t1 :: t2 :: t3 :: (P ++ C)).getD 6 0 = t2 := rfl
  have hg7 : (a0 :: a1 :: a2 :: a3 :: t0 :: t1 :: t2 :: t3 :: (P ++ C)).getD 7 0 = t3 := rfl
  have htk : ((a0 :: a1 :: a2 :: a3 :: t0 :: t1 :: t2 :: t3 :: (P ++ C)).drop 4).take 4
      = [t0, t1, t2, t3] := rfl
  rw [hlen, hdropN, hpay, hg4, hg5, hg6, hg7, htk]
  constructor
  · rintro ⟨-, h2, h3⟩
    exact ⟨h2, h3⟩
  · rintro ⟨h2, h3⟩
    exact ⟨by omega, h2, h3⟩

theorem try_from_concat_letters (a0 a1 a2 a3 t0 t1 t2 t3 : Nat) (P C : List Nat)
    (hC : C.length = 4)
    (hlet : ∀ b ∈ [t0, t1, t2, t3], isAsciiLetterByte b = true) :
    Chunk.try_from (a0 :: a1 :: a2 :: a3 :: t0 :: t1 :: t2 :: t3 :: (P ++ C)) =
      if checksum_ieee ([t0, t1, t2, t3] ++ P) ≠ u32_from_be_bytes C then
        .error (.InvalidCRC (checksum_ieee ([t0, t1, t2, t3] ++ P))
          (u32_from_be_bytes C))
      else
        .ok ⟨u32_from_be_bytes [a0, a1, a2, a3], ⟨t0, t1, t2, t3⟩, P,
          u32_from_be_bytes C⟩ := by
  rw [try_from_concat a0 a1 a2 a3 t0 t1 t2 t3 P C hC, tryFrom_of_letters hlet]

theorem try_from_concat_invalid (a0 a1 a2 a3 t0 t1 t2 t3 b : Nat) (P C : List Nat)
    (hC : C.length = 4)
    (hinv : firstInvalidByte [t0, t1, t2, t3] = some b) :
    Chunk.try_from (a0 :: a1 :: a2 :: a3 :: t0 :: t1 :: t2 :: t3 :: (P ++ C)) =
      .error (.ChunkTypeError (.InvalidByte b)) := by
  rw [try_from_concat a0 a1 a2 a3 t0 t1 t2 t3 P C hC, tryFrom_error_of_invalid hinv]

theorem try_from_ok_iff (bytes : List Nat) :
    (∃ c, Chunk.try_from bytes = .ok c) ↔ DecodeCond bytes := by
  by_cases hlen : bytes.length < 12
  · constructor
    · rintro ⟨c, hc⟩
      unfold Chunk.try_from at hc
      rw [if_pos hlen] at hc
      exact absurd hc (by simp)
    · rintro ⟨h12, -, -⟩
      omega
  · push_neg at hlen
    obtain ⟨a0, a1, a2, a3, t0, t1, t2, t3, P, C, rfl, hC⟩ := exists_decomp12 bytes hlen
    rw [decodeCond_concat a0 a1 a2 a3 t0 t1 t2 t3 P C hC]
    by_cases hlet : ∀ b ∈ [t0, t1, t2, t3], isAsciiLetterByte b = true
    · rw [try_from_concat_letters a0 a1 a2 a3 t0 t1 t2 t3 P C hC hlet]
      by_cases hcrc : checksum_ieee ([t0, t1, t2, t3] ++ P) = u32_from_be_bytes C
      · rw [if_neg (not_not_intro hcrc)]
        exact ⟨fun _ => ⟨hlet, hcrc⟩, fun _ => ⟨_, rfl⟩⟩
      · rw [if_pos hcrc]
        constructor
        · rintro ⟨c, hc⟩
          exact absurd hc (by simp)
        · rintro ⟨-, h3⟩
          exact absurd h3 hcrc
    · obtain ⟨b, hb⟩ := firstInvalidByte_isSome hlet
      rw [try_from_concat_invalid a0 a1 a2 a3 t0 t1 t2 t3 b P C hC hb]
      constructor
      · rintro ⟨c, hc⟩
        exact absurd hc (by simp)
      · rintro ⟨hl, -⟩
        exact absurd hl hlet

theorem try_from_ok_val {bytes : List Nat} {c : Chunk}
    (h : Chunk.try_from bytes = .ok c) :
    12 ≤ bytes.length ∧
    c.length = u32_from_be_bytes (bytes.take 4) ∧
    c.chunk_type = ⟨bytes.getD 4 0, bytes.getD 5 0, bytes.getD 6 0, bytes.getD 7 0⟩ ∧
    c.data = (bytes.drop 8).take (bytes.length - 12) ∧
    c.crc = u32_from_be_bytes (bytes.drop (bytes.length - 4)) := by
  by_cases hlen : bytes.length < 12
  · unfold Chunk.try_from at h
    rw [if_pos hlen] at h
    exact absurd h (by simp)
  · push_neg at hlen
    obtain ⟨a0, a1, a2, a3, t0, t1, t2, t3, P, C, heq, hC⟩ := exists_decomp12 bytes hlen
    subst heq
    by_cases hlet : ∀ b ∈ [t0, t1, t2, t3], isAsciiLetterByte b = true
    case neg =>
      obtain ⟨b, hb⟩ := firstInvalidByte_isSome hlet
      rw [try_from_concat_invalid a0 a1 a2 a3 t0 t1 t2 t3 b P C hC hb] at h
      exact absurd h (by simp)
    case pos =>
      rw [try_from_concat_letters a0 a1 a2 a3 t0 t1 t2 t3 P C hC hlet] at h
      by_cases hcrc : checksum_ieee ([t0, t1, t2, t3] ++ P) = u32_from_be_bytes C
      · rw [if_neg (not_not_intro hcrc)] at h
        have hc : c = ⟨u32_from_be_bytes [a0, a1, a2, a3], ⟨t0, t1, t2, t3⟩, P,
            u32_from_be_bytes C⟩ := (Except.ok.inj h).symm
        subst hc
        have hlen2 : (a0 :: a1 :: a2 :: a3 :: t0 :: t1 :: t2 :: t3 :: (P ++ C)).length
            = 12 + P.length := by
          simp [hC]
          omega
        have hdropN : (a0 :: a1 :: a2 :: a3 :: t0 :: t1 :: t2 :: t3 :: (P ++ C)).drop
            (12 + P.length - 4) = C := by
          have h8 : 12 + P.length - 4 = 8 + P.length := by omega
          rw [h8, ← List.drop_drop]
          show (P ++ C).drop P.length = C
          exact List.drop_left P C
        have hpay : ((a0 :: a1 :: a2 :: a3 :: t0 :: t1 :: t2 :: t3 :: (P ++ C)).drop 8).take
            (12 + P.length - 12) = P := by
          show ((P ++ C)).take (12 + P.length - 12) = P
          have h12 : 12 + P.length - 12 = P.length := by omega
          rw [h12]
          exact List.take_left P C
        rw [hlen2, hdropN, hpay]
        exact ⟨by omega, rfl, rfl, rfl, rfl⟩
      · rw [if_pos hcrc] at h
        exact absurd h (by simp)

theorem concat_length (a0 a1 a2 a3 t0 t1 t2 t3 : Nat) (P C : List Nat)
    (hC : C.length = 4) :
    (a0 :: a1 :: a2 :: a3 :: t0 :: t1 :: t2 :: t3 :: (P ++ C)).length
      = 12 + P.length := by
  simp [hC]
  omega

theorem concat_drop_last4 (a0 a1 a2 a3 t0 t1 t2 t3 : Nat) (P C : List Nat)
    (hC : C.length = 4) :
    (a0 :: a1 :: a2 :: a3 :: t0 :: t1 :: t2 :: t3 :: (P ++ C)).drop
      ((a0 :: a1 :: a2 :: a3 :: t0 :: t1 :: t2 :: t3 :: (P ++ C)).length - 4) = C := by
  rw [concat_length a0 a1 a2 a3 t0 t1 t2 t3 P C hC]
  have h8 : 12 + P.length - 4 = 8 + P.length := by omega
  rw [h8, ← List.drop_drop]
  show (P ++ C).drop P.length = C
  exact List.drop_left P C

theorem concat_payload (a0 a1 a2 a3 t0 t1 t2 t3 : Nat) (P C : List Nat)
    (hC : C.length = 4) :
    ((a0 :: a1 :: a2 :: a3 :: t0 :: t1 :: t2 :: t3 :: (P ++ C)).drop 8).take
      ((a0 :: a1 :: a2 :: a3 :: t0 :: t1 :: t2 :: t3 :: (P ++ C)).length - 12) = P := by
  rw [concat_length a0 a1 a2 a3 t0 t1 t2 t3 P C hC]
  show ((P ++ C)).take (12 + P.length - 12) = P
  have h12 : 12 + P.length - 12 = P.length := by omega
  rw [h12]
  exact List.take_left P C

theorem isAsciiLetterByte_iff (b : Nat) :
    isAsciiLetterByte b = true ↔ ((65 ≤ b ∧ b ≤ 90) ∨ (97 ≤ b ∧ b ≤ 122)) := by
  simp [isAsciiLetterByte]

/-! ## Claim theorems -/

/-- C4: for every byte buffer of length 11 or fewer, regardless of its
content, decoding fails with the `ChunkTooShort` error; the length check
precedes every other validation, so no property of the content matters. -/
theorem decode_too_short (bytes : List Nat) (h : bytes.length ≤ 11) :
    Chunk.try_from bytes = .error .ChunkTooShort := by
  unfold Chunk.try_from
  rw [if_pos (by omega)]

theorem decode_too_short_witness :
    ([0, 1, 2, 3, 4, 5, 6, 7, 8, 9, 10] : List Nat).length ≤ 11 ∧
    Chunk.try_from [0, 1, 2, 3, 4, 5, 6, 7, 8, 9, 10] = .error .ChunkTooShort :=
  ⟨by decide, decode_too_short [0, 1, 2, 3, 4, 5, 6, 7, 8, 9, 10] (by decide)⟩

/-- C3: decoding a byte buffer succeeds iff the buffer is at least 12
bytes long, bytes [4,8) are ASCII letters, and the trailing big-endian
u32 equals the CRC-32/IEEE over bytes [4,8) ++ [8, total_len-4); the
payload slice is bounded by the buffer's actual length; on a CRC
mismatch the failure is `InvalidCRC computed declared`.  No semantic
type-tag validity enters the success condition. -/
theorem decode_success_characterization (bytes : List Nat) :
    ((∃ c, Chunk.try_from bytes = .ok c) ↔ DecodeCond bytes) ∧
    (∀ c, Chunk.try_from bytes = .ok c →
      c.data = (bytes.drop 8).take (bytes.length - 12)) ∧
    (12 ≤ bytes.length →
      (∀ b ∈ [bytes.getD 4 0, bytes.getD 5 0, bytes.getD 6 0, bytes.getD 7 0],
        isAsciiLetterByte b = true) →
      checksum_ieee ((bytes.drop 4).take 4 ++ (bytes.drop 8).take (bytes.length - 12))
        ≠ u32_from_be_bytes (bytes.drop (bytes.length - 4)) →
      Chunk.try_from bytes = .error
        (.InvalidCRC
          (checksum_ieee
            ((bytes.drop 4).take 4 ++ (bytes.drop 8).take (bytes.length - 12)))
          (u32_from_be_bytes (bytes.drop (bytes.length - 4))))) := by
  refine ⟨try_from_ok_iff bytes, fun c hc => (try_from_ok_val hc).2.2.2.1, ?_⟩
  intro h12 hlet hne
  obtain ⟨a0, a1, a2, a3, t0, t1, t2, t3, P, C, heq, hC⟩ := exists_decomp12 bytes h12
  subst heq
  have htk : ((a0 :: a1 :: a2 :: a3 :: t0 :: t1 :: t2 :: t3 :: (P ++ C)).drop 4).take 4
      = [t0, t1, t2, t3] := rfl
  rw [htk, concat_payload a0 a1 a2 a3 t0 t1 t2 t3 P C hC,
    concat_drop_last4 a0 a1 a2 a3 t0 t1 t2 t3 P C hC] at hne ⊢
  rw [try_from_concat_letters a0 a1 a2 a3 t0 t1 t2 t3 P C hC hlet, if_pos hne]

theorem decode_success_characterization_witness :
    Chunk.try_from [0, 0, 0, 0, 82, 117, 83, 116, 212, 132, 9, 61]
      = .error (.InvalidCRC 3565422908 3565422909) := by
  have h := (decode_success_characterization
    [0, 0, 0, 0, 82, 117, 83, 116, 212, 132, 9, 61]).2.2
    (by decide) (by decide) (by decide)
  rw [h]
  rfl

/-- C6: constructing a Chunk from a TypeTag and a payload sets `length`
to the payload's byte count and `crc` to the CRC-32/IEEE over the tag's
4 bytes followed by the payload, stores the payload verbatim, and fails
with the numeric-overflow error exactly when the payload byte count
exceeds the unsigned 32-bit range. -/
theorem chunk_new_spec (t : ChunkType) (p : List Nat) :
    Chunk.new t p = (if p.length ≤ UINT32_MAX
      then .ok ⟨p.length, t, p, checksum_ieee (t.bytes ++ p)⟩
      else .error ⟨⟩) ∧
    ((∃ e, Chunk.new t p = .error e) ↔ UINT32_MAX < p.length) := by
  unfold Chunk.new u32_try_from
  by_cases h : p.length ≤ UINT32_MAX
  · rw [if_pos h, if_pos h]
    refine ⟨rfl, ?_⟩
    constructor
    · rintro ⟨e, he⟩
      exact absurd he (by simp)
    · intro hgt
      exact absurd hgt (by omega)
  · rw [if_neg h, if_neg h]
    exact ⟨rfl, fun _ => by omega, fun _ => ⟨⟨⟩, rfl⟩⟩

/-- C7: constructing a TypeTag from 4 raw bytes succeeds iff every byte
is an ASCII letter (A-Z or a-z), and otherwise fails with `InvalidByte`
naming the first offending byte in scan order; constructing from a text
string fails with `InvalidLength` whenever the byte count is not 4
(before any byte-range validation), and otherwise delegates to the
byte-array constructor. -/
theorem type_tag_construction_spec (b0 b1 b2 b3 : Nat) (s : List Nat) :
    ((∃ ct, ChunkType.tryFrom b0 b1 b2 b3 = .ok ct) ↔
      ∀ b ∈ [b0, b1, b2, b3], (65 ≤ b ∧ b ≤ 90) ∨ (97 ≤ b ∧ b ≤ 122)) ∧
    ((∀ b ∈ [b0, b1, b2, b3], isAsciiLetterByte b = true) →
      ChunkType.tryFrom b0 b1 b2 b3 = .ok ⟨b0, b1, b2, b3⟩) ∧
    (isAsciiLetterByte b0 = false →
      ChunkType.tryFrom b0 b1 b2 b3 = .error (.InvalidByte b0)) ∧
    (isAsciiLetterByte b0 = true → isAsciiLetterByte b1 = false →
      ChunkType.tryFrom b0 b1 b2 b3 = .error (.InvalidByte b1)) ∧
    (isAsciiLetterByte b0 = true → isAsciiLetterByte b1 = true →
      isAsciiLetterByte b2 = false →
      ChunkType.tryFrom b0 b1 b2 b3 = .error (.InvalidByte b2)) ∧
    (isAsciiLetterByte b0 = true → isAsciiLetterByte b1 = true →
      isAsciiLetterByte b2 = true → isAsciiLetterByte b3 = false →
      ChunkType.tryFrom b0 b1 b2 b3 = .error (.InvalidByte b3)) ∧
    (s.length ≠ 4 → ChunkType.fromStr s = .error .InvalidLength) ∧
    (s.length = 4 →
      ChunkType.fromStr s =
        ChunkType.tryFrom (s.getD 0 0) (s.getD 1 0) (s.getD 2 0) (s.getD 3 0)) := by
  refine ⟨?_, tryFrom_of_letters, ?_, ?_, ?_, ?_, ?_, ?_⟩
  · constructor
    · rintro ⟨ct, hct⟩
      intro b hb
      exact (isAsciiLetterByte_iff b).mp ((tryFrom_ok_inv hct).2 b hb)
    · intro hall
      exact ⟨_, tryFrom_of_letters (fun b hb => (isAsciiLetterByte_iff b).mpr (hall b hb))⟩
  · intro h0
    exact tryFrom_error_of_invalid (by simp [firstInvalidByte, h0])
  · intro h0 h1
    exact tryFrom_error_of_invalid (by simp [firstInvalidByte, h0, h1])
  · intro h0 h1 h2
    exact tryFrom_error_of_invalid (by simp [firstInvalidByte, h0, h1, h2])
  · intro h0 h1 h2 h3
    exact tryFrom_error_of_invalid (by simp [firstInvalidByte, h0, h1, h2, h3])
  · intro hne
    unfold ChunkType.fromStr
    rw [if_pos hne]
  · intro he
    unfold ChunkType.fromStr
    rw [if_neg (by omega)]

theorem type_tag_construction_spec_witness :
    ChunkType.tryFrom 82 117 49 116 = .error (.InvalidByte 49) ∧
    ChunkType.fromStr [82, 117, 83] = .error .InvalidLength :=
  ⟨(type_tag_construction_spec 82 117 49 116 []).2.2.2.2.1
      (by decide) (by decide) (by decide),
    (type_tag_construction_spec 82 117 49 116 [82, 117, 83]).2.2.2.2.2.2.1
      (by decide)⟩

/-- C8: `is_valid` returns true iff all 4 bytes are ASCII letters and
bit 5 (value 0x20) of the third byte is 0; it is a pure total function.
In particular "RuSt" satisfies it and "Rust" does not. -/
theorem is_valid_characterization (ct : ChunkType) :
    (ct.is_valid = true ↔
      ((∀ b ∈ ct.bytes, (65 ≤ b ∧ b ≤ 90) ∨ (97 ≤ b ∧ b ≤ 122)) ∧
        Nat.testBit ct.b2 5 = false)) ∧
    ChunkType.is_valid ⟨82, 117, 83, 116⟩ = true ∧
    ChunkType.is_valid ⟨82, 117, 115, 116⟩ = false := by
  refine ⟨?_, by decide, by decide⟩
  have hbit : (ct.b2 &&& 32 == 32) = ct.b2.testBit 5 := by
    have h := Nat.and_two_pow ct.b2 5
    norm_num at h
    rw [h]
    cases ct.b2.testBit 5 <;> simp
  unfold ChunkType.is_valid
  rw [hbit]
  split_ifs with h1 h2
  · constructor
    · intro hf
      exact absurd hf (by simp)
    · rintro ⟨hlet, -⟩
      have hall : ct.bytes.all isAsciiLetterByte = true := by
        simp only [List.all_eq_true]
        exact fun b hbm => (isAsciiLetterByte_iff b).mpr (hlet b hbm)
      rw [hall] at h1
      exact absurd h1 (by simp)
  · constructor
    · intro hf
      exact absurd hf (by simp)
    · rintro ⟨-, hbit5⟩
      rw [hbit5] at h2
      exact absurd h2 (by simp)
  · have hall : ct.bytes.all isAsciiLetterByte = true := by
      revert h1
      cases ct.bytes.all isAsciiLetterByte <;> simp
    have hb5 : ct.b2.testBit 5 = false := by
      revert h2
      cases ct.b2.testBit 5 <;> simp
    simp only [List.all_eq_true] at hall
    exact ⟨fun _ => ⟨fun b hbm => (isAsciiLetterByte_iff b).mp (hall b hbm), hb5⟩,
      fun _ => rfl⟩

/-- C1: for every TypeTag (its bytes ASCII letters, as construction
guarantees) and byte payload of length at most 2^32-1, constructing a
Chunk, serializing it and decoding the bytes succeeds and returns a
Chunk equal to the constructed one in all four fields. -/
theorem chunk_encode_decode_roundtrip (t : ChunkType) (p : List Nat)
    (hlet : ∀ b ∈ t.bytes, isAsciiLetterByte b = true)
    (hp : ∀ b ∈ p, b < 256)
    (hlen : p.length ≤ UINT32_MAX) :
    ∃ c, Chunk.new t p = .ok c ∧ Chunk.try_from c.as_bytes = .ok c := by
  obtain ⟨t0, t1, t2, t3⟩ := t
  simp only [ChunkType.bytes] at hlet
  refine ⟨⟨p.length, ⟨t0, t1, t2, t3⟩, p, checksum_ieee ([t0, t1, t2, t3] ++ p)⟩, ?_, ?_⟩
  · unfold Chunk.new u32_try_from
    rw [if_pos hlen]
    rfl
  · have hmsg : ∀ b ∈ [t0, t1, t2, t3] ++ p, b < 256 := by
      intro b hb
      rcases List.mem_append.mp hb with hb | hb
      · exact isAsciiLetterByte_lt (hlet b hb)
      · exact hp b hb
    have hcrcle : checksum_ieee ([t0, t1, t2, t3] ++ p) ≤ UINT32_MAX :=
      checksum_ieee_le _ hmsg
    obtain ⟨e0, e1, e2, e3, hE⟩ := exists_four (u32_to_be_bytes p.length)
      (u32_to_be_bytes_length _)
    obtain ⟨f0, f1, f2, f3, hF⟩ := exists_four
      (u32_to_be_bytes (checksum_ieee ([t0, t1, t2, t3] ++ p)))
      (u32_to_be_bytes_length _)
    have hshape : Chunk.as_bytes
        ⟨p.length, ⟨t0, t1, t2, t3⟩, p, checksum_ieee ([t0, t1, t2, t3] ++ p)⟩
        = e0 :: e1 :: e2 :: e3 :: t0 :: t1 :: t2 :: t3 :: (p ++ [f0, f1, f2, f3]) := by
      unfold Chunk.as_bytes
      rw [hE, hF]
      rfl
    rw [hshape,
      try_from_concat_letters e0 e1 e2 e3 t0 t1 t2 t3 p [f0, f1, f2, f3] rfl hlet]
    have hcrc_rt : u32_from_be_bytes [f0, f1, f2, f3]
        = checksum_ieee ([t0, t1, t2, t3] ++ p) := by
      rw [← hF]
      exact u32_from_be_of_to_be hcrcle
    have hlen_rt : u32_from_be_bytes [e0, e1, e2, e3] = p.length := by
      rw [← hE]
      exact u32_from_be_of_to_be hlen
    rw [if_neg (not_not_intro hcrc_rt.symm), hcrc_rt, hlen_rt]

theorem chunk_encode_decode_roundtrip_witness :
    (∀ b ∈ (ChunkType.mk 82 117 83 116).bytes, isAsciiLetterByte b = true) ∧
    (∀ b ∈ ([72, 105] : List Nat), b < 256) ∧
    ([72, 105] : List Nat).length ≤ UINT32_MAX ∧
    ∃ c, Chunk.new ⟨82, 117, 83, 116⟩ [72, 105] = .ok c ∧
      Chunk.try_from c.as_bytes = .ok c :=
  ⟨by decide, by decide, by decide,
    chunk_encode_decode_roundtrip ⟨82, 117, 83, 116⟩ [72, 105]
      (by decide) (by decide) (by decide)⟩

/-- C10: for every byte buffer that decode accepts, serializing the
resulting Chunk reproduces the input buffer exactly, the declared
length field included, whether or not it matches the payload size. -/
theorem decode_then_encode_identity (bytes : List Nat) (c : Chunk)
    (hb : ∀ x ∈ bytes, x < 256)
    (h : Chunk.try_from bytes = .ok c) :
    c.as_bytes = bytes := by
  obtain ⟨h12, hlen, hct, hdata, hcrc⟩ := try_from_ok_val h
  obtain ⟨a0, a1, a2, a3, t0, t1, t2, t3, P, C, heq, hC⟩ := exists_decomp12 bytes h12
  subst heq
  obtain ⟨c0, c1, c2, c3, hCeq⟩ := exists_four C hC
  subst hCeq
  rw [concat_payload a0 a1 a2 a3 t0 t1 t2 t3 P [c0, c1, c2, c3] hC] at hdata
  rw [concat_drop_last4 a0 a1 a2 a3 t0 t1 t2 t3 P [c0, c1, c2, c3] hC] at hcrc
  have htake : (a0 :: a1 :: a2 :: a3 :: t0 :: t1 :: t2 :: t3 ::
      (P ++ [c0, c1, c2, c3])).take 4 = [a0, a1, a2, a3] := rfl
  rw [htake] at hlen
  unfold Chunk.as_bytes
  rw [hlen, hct, hdata, hcrc]
  have hA : u32_to_be_bytes (u32_from_be_bytes [a0, a1, a2, a3]) = [a0, a1, a2, a3] :=
    u32_to_be_of_from_be (hb a0 (by simp)) (hb a1 (by simp)) (hb a2 (by simp))
      (hb a3 (by simp))
  have hCrt : u32_to_be_bytes (u32_from_be_bytes [c0, c1, c2, c3]) = [c0, c1, c2, c3] :=
    u32_to_be_of_from_be (hb c0 (by simp)) (hb c1 (by simp)) (hb c2 (by simp))
      (hb c3 (by simp))
  rw [hA, hCrt]
  rfl

theorem decode_then_encode_identity_witness :
    (∀ x ∈ ([0, 0, 0, 5, 82, 117, 83, 116, 212, 132, 9, 60] : List Nat), x < 256) ∧
    (Chunk.mk 5 ⟨82, 117, 83, 116⟩ [] 3565422908).as_bytes
      = [0, 0, 0, 5, 82, 117, 83, 116, 212, 132, 9, 60] :=
  ⟨by decide,
    decode_then_encode_identity [0, 0, 0, 5, 82, 117, 83, 116, 212, 132, 9, 60]
      ⟨5, ⟨82, 117, 83, 116⟩, [], 3565422908⟩ (by decide) rfl⟩

/-- C2 counterexample: the 12-byte buffer with declared length 5, type
"RuSt", empty payload and matching CRC decodes successfully, yet the
stored length field (5) differs from the stored payload byte count (0). -/
theorem length_field_invariant_counterexample :
    Chunk.try_from [0, 0, 0, 5, 82, 117, 83, 116, 212, 132, 9, 60]
      = .ok ⟨5, ⟨82, 117, 83, 116⟩, [], 3565422908⟩ ∧
    (Chunk.mk 5 ⟨82, 117, 83, 116⟩ [] 3565422908).length
      ≠ (Chunk.mk 5 ⟨82, 117, 83, 116⟩ [] 3565422908).data.length :=
  ⟨rfl, by decide⟩

/-- C2 amended: `length` equals the payload byte count for every Chunk
made by the constructor; for a decoded Chunk the stored length is the
declared big-endian field of bytes [0,4) and the stored payload byte
count is the buffer length minus 12 — the two need not agree because
decode never cross-checks them. -/
theorem length_field_invariant_amended :
    (∀ (t : ChunkType) (p : List Nat) (c : Chunk),
      Chunk.new t p = .ok c → c.length = c.data.length) ∧
    (∀ (bytes : List Nat) (c : Chunk), Chunk.try_from bytes = .ok c →
      c.length = u32_from_be_bytes (bytes.take 4) ∧
      c.data.length = bytes.length - 12) := by
  constructor
  · intro t p c h
    unfold Chunk.new u32_try_from at h
    by_cases hl : p.length ≤ UINT32_MAX
    · rw [if_pos hl] at h
      have := (Except.ok.inj h).symm
      subst this
      rfl
    · rw [if_neg hl] at h
      exact absurd h (by simp)
  · intro bytes c h
    obtain ⟨h12, hlen, -, hdata, -⟩ := try_from_ok_val h
    refine ⟨hlen, ?_⟩
    rw [hdata]
    simp only [List.length_take, List.length_drop]
    omega

theorem length_field_invariant_amended_witness :
    (Chunk.mk 5 ⟨82, 117, 83, 116⟩ [] 3565422908).length
      = u32_from_be_bytes
        (([0, 0, 0, 5, 82, 117, 83, 116, 212, 132, 9, 60] : List Nat).take 4) ∧
    (Chunk.mk 5 ⟨82, 117, 83, 116⟩ [] 3565422908).data.length
      = ([0, 0, 0, 5, 82, 117, 83, 116, 212, 132, 9, 60] : List Nat).length - 12 :=
  length_field_invariant_amended.2 [0, 0, 0, 5, 82, 117, 83, 116, 212, 132, 9, 60]
    ⟨5, ⟨82, 117, 83, 116⟩, [], 3565422908⟩ rfl

/-! ## Lemmas: bit flips -/

theorem xor_two_pow_ne (x k : Nat) : x ^^^ 2 ^ k ≠ x := by
  intro h
  have h2 : x ^^^ 2 ^ k = x ^^^ 0 := by
    rw [Nat.xor_zero]
    exact h
  have h3 := xor_left_inj h2
  exact absurd (h3 ▸ Nat.two_pow_pos k) (lt_irrefl 0)

theorem xor_two_pow_lt {x k : Nat} (hx : x < 256) (hk : k < 8) : x ^^^ 2 ^ k < 256 := by
  have h1 : x < 2 ^ 8 := by omega
  have h2 : 2 ^ k < 2 ^ 8 := Nat.pow_lt_pow_right (by omega) (by omega)
  have := Nat.xor_lt_two_pow h1 h2
  omega

theorem list_set_decomp (l : List Nat) (j : Nat) (v : Nat) (hj : j < l.length) :
    l.set j v = l.take j ++ v :: l.drop (j + 1) := by
  induction l generalizing j with
  | nil => simp at hj
  | cons a as ih =>
    cases j with
    | zero => simp
    | succ j =>
      simp only [List.set_cons_succ, List.take_succ_cons, List.drop_succ_cons,
        List.cons_append, List.cons.injEq, true_and]
      exact ih j (by simpa using hj)

theorem list_getD_decomp (l : List Nat) (j : Nat) (hj : j < l.length) :
    l = l.take j ++ l.getD j 0 :: l.drop (j + 1) := by
  induction l generalizing j with
  | nil => simp at hj
  | cons a as ih =>
    cases j with
    | zero => simp
    | succ j =>
      simp only [List.take_succ_cons, List.getD_cons_succ, List.drop_succ_cons,
        List.cons_append, List.cons.injEq, true_and]
      exact ih j (by simpa using hj)

theorem getD_mem (l : List Nat) (j : Nat) (hj : j < l.length) : l.getD j 0 ∈ l := by
  rw [List.getD_eq_getElem?_getD, List.getElem?_eq_getElem hj]
  exact List.getElem_mem hj

/-- C5 amended: flipping any single bit of a valid encoded chunk inside
the type-tag region (bytes [4,8)) or the payload region (bytes
[8, total-4)) makes decoding fail.  A payload-region flip always fails
with a CRC mismatch; a type-tag-region flip fails either with a CRC
mismatch (when the flipped byte is still an ASCII letter) or with a
chunk-type `InvalidByte` error (checked before the CRC). -/
theorem tamper_detection_amended (bytes : List Nat) (c : Chunk) (i k : Nat)
    (hok : Chunk.try_from bytes = .ok c)
    (hbytes : ∀ x ∈ bytes, x < 256)
    (hi4 : 4 ≤ i) (hin : i < bytes.length - 4) (hk : k < 8) :
    ((∃ comp decl, Chunk.try_from (bytes.set i (bytes.getD i 0 ^^^ 2 ^ k))
        = .error (.InvalidCRC comp decl)) ∨
      (∃ b, Chunk.try_from (bytes.set i (bytes.getD i 0 ^^^ 2 ^ k))
        = .error (.ChunkTypeError (.InvalidByte b)))) ∧
    (8 ≤ i → ∃ comp decl, Chunk.try_from (bytes.set i (bytes.getD i 0 ^^^ 2 ^ k))
        = .error (.InvalidCRC comp decl)) := by
  have h12 := (try_from_ok_val hok).1
  obtain ⟨a0, a1, a2, a3, t0, t1, t2, t3, P, C, heq, hC⟩ := exists_decomp12 bytes h12
  subst heq
  have hcond := (try_from_ok_iff _).mp ⟨c, hok⟩
  rw [decodeCond_concat a0 a1 a2 a3 t0 t1 t2 t3 P C hC] at hcond
  obtain ⟨hlet, hcrc⟩ := hcond
  rw [concat_length a0 a1 a2 a3 t0 t1 t2 t3 P C hC] at hin
  have ht0 : t0 < 256 := hbytes t0 (by simp)
  have ht1 : t1 < 256 := hbytes t1 (by simp)
  have ht2 : t2 < 256 := hbytes t2 (by simp)
  have ht3 : t3 < 256 := hbytes t3 (by simp)
  have hPb : ∀ x ∈ P, x < 256 := fun x hx => hbytes x (by simp [hx])
  by_cases hreg : i < 8
  case pos =>
    have h8f : ¬ (8 ≤ i) := by omega
    refine ⟨?_, fun h8 => absurd h8 h8f⟩
    interval_cases i
    · -- flip inside t0
      have hg : (a0 :: a1 :: a2 :: a3 :: t0 :: t1 :: t2 :: t3 :: (P ++ C)).getD 4 0
          = t0 := rfl
      rw [hg]
      have hs : (a0 :: a1 :: a2 :: a3 :: t0 :: t1 :: t2 :: t3 :: (P ++ C)).set 4
          (t0 ^^^ 2 ^ k)
          = a0 :: a1 :: a2 :: a3 :: (t0 ^^^ 2 ^ k) :: t1 :: t2 :: t3 :: (P ++ C) := rfl
      rw [hs]
      have hvlt : t0 ^^^ 2 ^ k < 256 := xor_two_pow_lt ht0 hk
      have hvne : t0 ^^^ 2 ^ k ≠ t0 := xor_two_pow_ne t0 k
      rcases hvlet : isAsciiLetterByte (t0 ^^^ 2 ^ k) with _ | _
      · exact Or.inr ⟨t0 ^^^ 2 ^ k,
          try_from_concat_invalid a0 a1 a2 a3 _ t1 t2 t3 _ P C hC
            (by simp [firstInvalidByte, hvlet])⟩
      · refine Or.inl ?_
        have hlet2 : ∀ b ∈ [t0 ^^^ 2 ^ k, t1, t2, t3], isAsciiLetterByte b = true := by
          intro b hb
          simp only [List.mem_cons, List.not_mem_nil, or_false] at hb
          rcases hb with rfl | rfl | rfl | rfl
          · exact hvlet
          · exact hlet _ (by simp)
          · exact hlet _ (by simp)
          · exact hlet _ (by simp)
        have hne2 : checksum_ieee ([t0 ^^^ 2 ^ k, t1, t2, t3] ++ P)
            ≠ u32_from_be_bytes C := by
          intro hcol
          refine checksum_ieee_ne_of_byte_change [] ([t1, t2, t3] ++ P)
            (by intro x hx; simp at hx)
            ?_ hvlt ht0 hvne (hcol.trans hcrc.symm)
          intro x hx
          rcases List.mem_append.mp hx with hx | hx
          · simp only [List.mem_cons, List.not_mem_nil, or_false] at hx
            rcases hx with rfl | rfl | rfl
            exacts [ht1, ht2, ht3]
          · exact hPb x hx
        have key := try_from_concat_letters a0 a1 a2 a3 (t0 ^^^ 2 ^ k) t1 t2 t3 P C hC hlet2
        rw [if_pos hne2] at key
        exact ⟨_, _, key⟩
    · -- flip inside t1
      have hg : (a0 :: a1 :: a2 :: a3 :: t0 :: t1 :: t2 :: t3 :: (P ++ C)).getD 5 0
          = t1 := rfl
      rw [hg]
      have hs : (a0 :: a1 :: a2 :: a3 :: t0 :: t1 :: t2 :: t3 :: (P ++ C)).set 5
          (t1 ^^^ 2 ^ k)
          = a0 :: a1 :: a2 :: a3 :: t0 :: (t1 ^^^ 2 ^ k) :: t2 :: t3 :: (P ++ C) := rfl
      rw [hs]
      have hvlt : t1 ^^^ 2 ^ k < 256 := xor_two_pow_lt ht1 hk
      have hvne : t1 ^^^ 2 ^ k ≠ t1 := xor_two_pow_ne t1 k
      rcases hvlet : isAsciiLetterByte (t1 ^^^ 2 ^ k) with _ | _
      · exact Or.inr ⟨t1 ^^^ 2 ^ k,
          try_from_concat_invalid a0 a1 a2 a3 t0 _ t2 t3 _ P C hC
            (by simp [firstInvalidByte, hvlet, hlet t0 (by simp)])⟩
      · refine Or.inl ?_
        have hlet2 : ∀ b ∈ [t0, t1 ^^^ 2 ^ k, t2, t3], isAsciiLetterByte b = true := by
          intro b hb
          simp only [List.mem_cons, List.not_mem_nil, or_false] at hb
          rcases hb with rfl | rfl | rfl | rfl
          · exact hlet _ (by simp)
          · exact hvlet
          · exact hlet _ (by simp)
          · exact hlet _ (by simp)
        have hne2 : checksum_ieee ([t0, t1 ^^^ 2 ^ k, t2, t3] ++ P)
            ≠ u32_from_be_bytes C := by
          intro hcol
          refine checksum_ieee_ne_of_byte_change [t0] ([t2, t3] ++ P)
            (by intro x hx; simp at hx; omega)
            ?_ hvlt ht1 hvne (hcol.trans hcrc.symm)
          intro x hx
          rcases List.mem_append.mp hx with hx | hx
          · simp only [List.mem_cons, List.not_mem_nil, or_false] at hx
            rcases hx with rfl | rfl
            exacts [ht2, ht3]
          · exact hPb x hx
        have key := try_from_concat_letters a0 a1 a2 a3 t0 (t1 ^^^ 2 ^ k) t2 t3 P C hC hlet2
        rw [if_pos hne2] at key
        exact ⟨_, _, key⟩
    · -- flip inside t2
      have hg : (a0 :: a1 :: a2 :: a3 :: t0 :: t1 :: t2 :: t3 :: (P ++ C)).getD 6 0
          = t2 := rfl
      rw [hg]
      have hs : (a0 :: a1 :: a2 :: a3 :: t0 :: t1 :: t2 :: t3 :: (P ++ C)).set 6
          (t2 ^^^ 2 ^ k)
          = a0 :: a1 :: a2 :: a3 :: t0 :: t1 :: (t2 ^^^ 2 ^ k) :: t3 :: (P ++ C) := rfl
      rw [hs]
      have hvlt : t2 ^^^ 2 ^ k < 256 := xor_two_pow_lt ht2 hk
      have hvne : t2 ^^^ 2 ^ k ≠ t2 := xor_two_pow_ne t2 k
      rcases hvlet : isAsciiLetterByte (t2 ^^^ 2 ^ k) with _ | _
      · exact Or.inr ⟨t2 ^^^ 2 ^ k,
          try_from_concat_invalid a0 a1 a2 a3 t0 t1 _ t3 _ P C hC
            (by simp [firstInvalidByte, hvlet, hlet t0 (by simp), hlet t1 (by simp)])⟩
      · refine Or.inl ?_
        have hlet2 : ∀ b ∈ [t0, t1, t2 ^^^ 2 ^ k, t3], isAsciiLetterByte b = true := by
          intro b hb
          simp only [List.mem_cons, List.not_mem_nil, or_false] at hb
          rcases hb with rfl | rfl | rfl | rfl
          · exact hlet _ (by simp)
          · exact hlet _ (by simp)
          · exact hvlet
          · exact hlet _ (by simp)
        have hne2 : checksum_ieee ([t0, t1, t2 ^^^ 2 ^ k, t3] ++ P)
            ≠ u32_from_be_bytes C := by
          intro hcol
          refine checksum_ieee_ne_of_byte_change [t0, t1] ([t3] ++ P)
            (by intro x hx; simp at hx; omega)
            ?_ hvlt ht2 hvne (hcol.trans hcrc.symm)
          intro x hx
          rcases List.mem_append.mp hx with hx | hx
          · simp only [List.mem_cons, List.not_mem_nil, or_false] at hx
            rcases hx with rfl
            exact ht3
          · exact hPb x hx
        have key := try_from_concat_letters a0 a1 a2 a3 t0 t1 (t2 ^^^ 2 ^ k) t3 P C hC hlet2
        rw [if_pos hne2] at key
        exact ⟨_, _, key⟩
    · -- flip inside t3
      have hg : (a0 :: a1 :: a2 :: a3 :: t0 :: t1 :: t2 :: t3 :: (P ++ C)).getD 7 0
          = t3 := rfl
      rw [hg]
      have hs : (a0 :: a1 :: a2 :: a3 :: t0 :: t1 :: t2 :: t3 :: (P ++ C)).set 7
          (t3 ^^^ 2 ^ k)
          = a0 :: a1 :: a2 :: a3 :: t0 :: t1 :: t2 :: (t3 ^^^ 2 ^ k) :: (P ++ C) := rfl
      rw [hs]
      have hvlt : t3 ^^^ 2 ^ k < 256 := xor_two_pow_lt ht3 hk
      have hvne : t3 ^^^ 2 ^ k ≠ t3 := xor_two_pow_ne t3 k
      rcases hvlet : isAsciiLetterByte (t3 ^^^ 2 ^ k) with _ | _
      · exact Or.inr ⟨t3 ^^^ 2 ^ k,
          try_from_concat_invalid a0 a1 a2 a3 t0 t1 t2 _ _ P C hC
            (by simp [firstInvalidByte, hvlet, hlet t0 (by simp), hlet t1 (by simp),
              hlet t2 (by simp)])⟩
      · refine Or.inl ?_
        have hlet2 : ∀ b ∈ [t0, t1, t2, t3 ^^^ 2 ^ k], isAsciiLetterByte b = true := by
          intro b hb
          simp only [List.mem_cons, List.not_mem_nil, or_false] at hb
          rcases hb with rfl | rfl | rfl | rfl
          · exact hlet _ (by simp)
          · exact hlet _ (by simp)
          · exact hlet _ (by simp)
          · exact hvlet
        have hne2 : checksum_ieee ([t0, t1, t2, t3 ^^^ 2 ^ k] ++ P)
            ≠ u32_from_be_bytes C := by
          intro hcol
          exact checksum_ieee_ne_of_byte_change [t0, t1, t2] P
            (by intro x hx; simp at hx; omega)
            hPb hvlt ht3 hvne (hcol.trans hcrc.symm)
        have key := try_from_concat_letters a0 a1 a2 a3 t0 t1 t2 (t3 ^^^ 2 ^ k) P C hC hlet2
        rw [if_pos hne2] at key
        exact ⟨_, _, key⟩
  case neg =>
    push_neg at hreg
    obtain ⟨j, rfl⟩ : ∃ j, i = j + 8 := ⟨i - 8, by omega⟩
    have hj : j < P.length := by omega
    have hgd : (a0 :: a1 :: a2 :: a3 :: t0 :: t1 :: t2 :: t3 :: (P ++ C)).getD (j + 8) 0
        = P.getD j 0 := by
      show ([a0, a1, a2, a3, t0, t1, t2, t3] ++ (P ++ C)).getD (j + 8) 0 = P.getD j 0
      rw [List.getD_eq_getElem?_getD, List.getD_eq_getElem?_getD,
        List.getElem?_append_right (by simp)]
      have hidx : j + 8 - ([a0, a1, a2, a3, t0, t1, t2, t3] : List Nat).length = j := by
        simp
      rw [hidx, List.getElem?_append_left hj]
    have hst : ∀ v, (a0 :: a1 :: a2 :: a3 :: t0 :: t1 :: t2 :: t3 :: (P ++ C)).set
        (j + 8) v
        = a0 :: a1 :: a2 :: a3 :: t0 :: t1 :: t2 :: t3 :: ((P.set j v) ++ C) := by
      intro v
      show ([a0, a1, a2, a3, t0, t1, t2, t3] ++ (P ++ C)).set (j + 8) v
        = [a0, a1, a2, a3, t0, t1, t2, t3] ++ ((P.set j v) ++ C)
      rw [List.set_append_right _ _ (by simp)]
      congr 1
      have hidx : j + 8 - ([a0, a1, a2, a3, t0, t1, t2, t3] : List Nat).length = j := by
        simp
      rw [hidx]
      exact List.set_append_left _ _ hj
    rw [hgd, hst]
    have holdlt : P.getD j 0 < 256 := hPb _ (getD_mem P j hj)
    have hvlt : P.getD j 0 ^^^ 2 ^ k < 256 := xor_two_pow_lt holdlt hk
    have hvne : P.getD j 0 ^^^ 2 ^ k ≠ P.getD j 0 := xor_two_pow_ne _ k
    have hne2 : checksum_ieee ([t0, t1, t2, t3] ++ P.set j (P.getD j 0 ^^^ 2 ^ k))
        ≠ u32_from_be_bytes C := by
      intro hcol
      have hMold : [t0, t1, t2, t3] ++ P
          = ([t0, t1, t2, t3] ++ P.take j) ++ P.getD j 0 :: P.drop (j + 1) := by
        conv_lhs => rw [list_getD_decomp P j hj]
        rw [List.append_assoc]
      have hMnew : [t0, t1, t2, t3] ++ P.set j (P.getD j 0 ^^^ 2 ^ k)
          = ([t0, t1, t2, t3] ++ P.take j) ++ (P.getD j 0 ^^^ 2 ^ k) ::
              P.drop (j + 1) := by
        rw [list_set_decomp P j _ hj, List.append_assoc]
      have hnech := checksum_ieee_ne_of_byte_change ([t0, t1, t2, t3] ++ P.take j)
        (P.drop (j + 1))
        (by
          intro x hx
          rcases List.mem_append.mp hx with hx | hx
          · simp only [List.mem_cons, List.not_mem_nil, or_false] at hx
            rcases hx with rfl | rfl | rfl | rfl
            exacts [ht0, ht1, ht2, ht3]
          · exact hPb x (List.mem_of_mem_take hx))
        (fun x hx => hPb x (List.mem_of_mem_drop hx))
        hvlt holdlt hvne
      rw [← hMnew, ← hMold] at hnech
      exact hnech (hcol.trans hcrc.symm)
    have key : Chunk.try_from (a0 :: a1 :: a2 :: a3 :: t0 :: t1 :: t2 :: t3 ::
        ((P.set j (P.getD j 0 ^^^ 2 ^ k)) ++ C)) = .error (.InvalidCRC
          (checksum_ieee ([t0, t1, t2, t3] ++ P.set j (P.getD j 0 ^^^ 2 ^ k)))
          (u32_from_be_bytes C)) := by
      rw [try_from_concat_letters a0 a1 a2 a3 t0 t1 t2 t3
        (P.set j (P.getD j 0 ^^^ 2 ^ k)) C hC hlet, if_pos hne2]
    exact ⟨Or.inl ⟨_, _, key⟩, fun _ => ⟨_, _, key⟩⟩

set_option maxRecDepth 4000 in
theorem tamper_detection_amended_witness :
    Chunk.try_from [0, 0, 0, 2, 82, 117, 83, 116, 65, 66, 58, 70, 89, 216]
      = .ok ⟨2, ⟨82, 117, 83, 116⟩, [65, 66], 977689048⟩ ∧
    ((∃ comp decl, Chunk.try_from
        (([0, 0, 0, 2, 82, 117, 83, 116, 65, 66, 58, 70, 89, 216] : List Nat).set 8
          (([0, 0, 0, 2, 82, 117, 83, 116, 65, 66, 58, 70, 89, 216] : List Nat).getD 8 0
            ^^^ 2 ^ 0))
        = .error (.InvalidCRC comp decl)) ∨
      (∃ b, Chunk.try_from
        (([0, 0, 0, 2, 82, 117, 83, 116, 65, 66, 58, 70, 89, 216] : List Nat).set 8
          (([0, 0, 0, 2, 82, 117, 83, 116, 65, 66, 58, 70, 89, 216] : List Nat).getD 8 0
            ^^^ 2 ^ 0))
        = .error (.ChunkTypeError (.InvalidByte b)))) := by
  have hok : Chunk.try_from [0, 0, 0, 2, 82, 117, 83, 116, 65, 66, 58, 70, 89, 216]
      = .ok ⟨2, ⟨82, 117, 83, 116⟩, [65, 66], 977689048⟩ := rfl
  exact ⟨hok,
    (tamper_detection_amended [0, 0, 0, 2, 82, 117, 83, 116, 65, 66, 58, 70, 89, 216]
      ⟨2, ⟨82, 117, 83, 116⟩, [65, 66], 977689048⟩ 8 0 hok (by decide) (by decide)
      (by decide) (by decide)).1⟩

/-- C5 counterexample: in the valid buffer for an empty-payload "RuSt"
chunk, flipping bit 6 of byte 4 (the first type-tag byte) turns 82
('R') into 18, outside the letter ranges, so decoding the tampered
buffer fails with `ChunkTypeError (InvalidByte 18)` — not with a CRC
mismatch as the claim states. -/
theorem tamper_crc_mismatch_counterexample :
    Chunk.try_from [0, 0, 0, 5, 82, 117, 83, 116, 212, 132, 9, 60]
      = .ok ⟨5, ⟨82, 117, 83, 116⟩, [], 3565422908⟩ ∧
    ([0, 0, 0, 5, 82, 117, 83, 116, 212, 132, 9, 60] : List Nat).set 4
      (([0, 0, 0, 5, 82, 117, 83, 116, 212, 132, 9, 60] : List Nat).getD 4 0 ^^^ 2 ^ 6)
      = [0, 0, 0, 5, 18, 117, 83, 116, 212, 132, 9, 60] ∧
    Chunk.try_from [0, 0, 0, 5, 18, 117, 83, 116, 212, 132, 9, 60]
      = .error (.ChunkTypeError (.InvalidByte 18)) :=
  ⟨rfl, rfl, rfl⟩

/-! ## Lemmas: UTF-8 -/

/-! ## Lemmas: UTF-8 -/

theorem utf8Decode_nil : utf8Decode [] = some [] := by
  unfold utf8Decode
  rfl

theorem utf8Decode_cons_eq (b : Nat) (l : List Nat) :
    utf8Decode (b :: l) = (match utf8DecodeOne b l with
      | some (v, l2) => (utf8Decode l2).map (fun cs => v :: cs)
      | none => none) := by
  conv_lhs => unfold utf8Decode
  split
  next v l2 heq => rw [heq]
  next heq => rw [heq]

theorem utf8Decode_cons_some {b v : Nat} {l l2 : List Nat}
    (h : utf8DecodeOne b l = some (v, l2)) :
    utf8Decode (b :: l) = (utf8Decode l2).map (fun cs => v :: cs) := by
  rw [utf8Decode_cons_eq, h]

theorem utf8Decode_cons_none {b : Nat} {l : List Nat}
    (h : utf8DecodeOne b l = none) :
    utf8Decode (b :: l) = none := by
  rw [utf8Decode_cons_eq, h]

theorem list_decomp1 (l : List Nat) (h : 1 ≤ l.length) :
    l = l.getD 0 0 :: l.drop 1 := by
  simpa using list_getD_decomp l 0 (by omega)

theorem list_decomp2 (l : List Nat) (h : 2 ≤ l.length) :
    l = l.getD 0 0 :: l.getD 1 0 :: l.drop 2 := by
  conv_lhs => rw [list_decomp1 l (by omega)]
  congr 1
  have hg : (l.drop 1).getD 0 0 = l.getD 1 0 := by
    simp [List.getD_eq_getElem?_getD, List.getElem?_drop]
  have hd : (l.drop 1).drop 1 = l.drop 2 := by rw [List.drop_drop]
  conv_lhs => rw [list_decomp1 (l.drop 1) (by simp; omega), hg, hd]

theorem list_decomp3 (l : List Nat) (h : 3 ≤ l.length) :
    l = l.getD 0 0 :: l.getD 1 0 :: l.getD 2 0 :: l.drop 3 := by
  conv_lhs => rw [list_decomp2 l (by omega)]
  congr 2
  have hg : (l.drop 2).getD 0 0 = l.getD 2 0 := by
    simp [List.getD_eq_getElem?_getD, List.getElem?_drop]
  have hd : (l.drop 2).drop 1 = l.drop 3 := by rw [List.drop_drop]
  conv_lhs => rw [list_decomp1 (l.drop 2) (by simp; omega), hg, hd]

theorem utf8DecodeOne_inversion {b : Nat} {l : List Nat} {v : Nat} {l2 : List Nat}
    (h : utf8DecodeOne b l = some (v, l2)) :
    IsScalar v ∧ utf8EncodeChar v ++ l2 = b :: l := by
  unfold utf8DecodeOne at h
  split_ifs at h with h1 h2 h3 h4 h5 h6 h7 h8 h9 h10 h11 h12 h13 h14 h15
  all_goals injection (Option.some.inj h) with hv hl
  all_goals subst hl
  all_goals subst hv
  · -- one byte
    refine ⟨⟨by omega, by omega⟩, ?_⟩
    unfold utf8EncodeChar
    rw [if_pos h1]
    rfl
  · -- two bytes
    simp only [Bool.and_eq_true, decide_eq_true_eq] at h2
    simp only [isUtf8Cont, Bool.and_eq_true, decide_eq_true_eq] at h3
    obtain ⟨hb1, hb2⟩ := h2
    obtain ⟨hlen, hg0a, hg0b⟩ := h3
    refine ⟨⟨by omega, by omega⟩, ?_⟩
    have hE : utf8EncodeChar ((b - 192) * 64 + (l.getD 0 0 - 128))
        = [b, l.getD 0 0] := by
      unfold utf8EncodeChar
      rw [if_neg (by omega), if_pos (by omega)]
      simp only [List.cons.injEq, and_true]
      omega
    rw [hE]
    conv_rhs => rw [list_decomp1 l (by omega)]
    rfl
  · -- three bytes, lead 224
    subst h5
    simp only [isUtf8Cont, Bool.and_eq_true, decide_eq_true_eq] at h6
    obtain ⟨⟨hlen, hg0a, hg0b⟩, hg1a, hg1b⟩ := h6
    refine ⟨⟨by omega, by omega⟩, ?_⟩
    have hE : utf8EncodeChar ((224 - 224) * 4096 + (l.getD 0 0 - 128) * 64
        + (l.getD 1 0 - 128)) = [224, l.getD 0 0, l.getD 1 0] := by
      unfold utf8EncodeChar
      rw [if_neg (by omega), if_neg (by omega), if_pos (by omega)]
      simp only [List.cons.injEq, and_true]
      omega
    rw [hE]
    conv_rhs => rw [list_decomp2 l (by omega)]
    rfl
  · -- three bytes, lead 237
    subst h7
    simp only [isUtf8Cont, Bool.and_eq_true, decide_eq_true_eq] at h8
    obtain ⟨⟨hlen, hg0a, hg0b⟩, hg1a, hg1b⟩ := h8
    refine ⟨⟨by omega, by omega⟩, ?_⟩
    have hE : utf8EncodeChar ((237 - 224) * 4096 + (l.getD 0 0 - 128) * 64
        + (l.getD 1 0 - 128)) = [237, l.getD 0 0, l.getD 1 0] := by
      unfold utf8EncodeChar
      rw [if_neg (by omega), if_neg (by omega), if_pos (by omega)]
      simp only [List.cons.injEq, and_true]
      omega
    rw [hE]
    conv_rhs => rw [list_decomp2 l (by omega)]
    rfl
  · -- three bytes, other lead
    simp only [Bool.and_eq_true, decide_eq_true_eq] at h4
    obtain ⟨hb1, hb2⟩ := h4
    simp only [isUtf8Cont, Bool.and_eq_true, decide_eq_true_eq] at h9
    obtain ⟨⟨hlen, hg0a, hg0b⟩, hg1a, hg1b⟩ := h9
    refine ⟨⟨by omega, by omega⟩, ?_⟩
    have hE : utf8EncodeChar ((b - 224) * 4096 + (l.getD 0 0 - 128) * 64
        + (l.getD 1 0 - 128)) = [b, l.getD 0 0, l.getD 1 0] := by
      unfold utf8EncodeChar
      rw [if_neg (by omega), if_neg (by omega), if_pos (by omega)]
      simp only [List.cons.injEq, and_true]
      omega
    rw [hE]
    conv_rhs => rw [list_decomp2 l (by omega)]
    rfl
  · -- four bytes, lead 240
    subst h11
    simp only [isUtf8Cont, Bool.and_eq_true, decide_eq_true_eq] at h12
    obtain ⟨⟨⟨hlen, hg0a, hg0b⟩, hg1a, hg1b⟩, hg2a, hg2b⟩ := h12
    refine ⟨⟨by omega, by omega⟩, ?_⟩
    have hE : utf8EncodeChar ((240 - 240) * 262144 + (l.getD 0 0 - 128) * 4096
        + (l.getD 1 0 - 128) * 64 + (l.getD 2 0 - 128))
        = [240, l.getD 0 0, l.getD 1 0, l.getD 2 0] := by
      unfold utf8EncodeChar
      rw [if_neg (by omega), if_neg (by omega), if_neg (by omega)]
      simp only [List.cons.injEq, and_true]
      omega
    rw [hE]
    conv_rhs => rw [list_decomp3 l (by omega)]
    rfl
  · -- four bytes, lead 244
    subst h13
    simp only [isUtf8Cont, Bool.and_eq_true, decide_eq_true_eq] at h14
    obtain ⟨⟨⟨hlen, hg0a, hg0b⟩, hg1a, hg1b⟩, hg2a, hg2b⟩ := h14
    refine ⟨⟨by omega, by omega⟩, ?_⟩
    have hE : utf8EncodeChar ((244 - 240) * 262144 + (l.getD 0 0 - 128) * 4096
        + (l.getD 1 0 - 128) * 64 + (l.getD 2 0 - 128))
        = [244, l.getD 0 0, l.getD 1 0, l.getD 2 0] := by
      unfold utf8EncodeChar
      rw [if_neg (by omega), if_neg (by omega), if_neg (by omega)]
      simp only [List.cons.injEq, and_true]
      omega
    rw [hE]
    conv_rhs => rw [list_decomp3 l (by omega)]
    rfl
  · -- four bytes, other lead
    simp only [Bool.and_eq_true, decide_eq_true_eq] at h10
    obtain ⟨hb1, hb2⟩ := h10
    simp only [isUtf8Cont, Bool.and_eq_true, decide_eq_true_eq] at h15
    obtain ⟨⟨⟨hlen, hg0a, hg0b⟩, hg1a, hg1b⟩, hg2a, hg2b⟩ := h15
    refine ⟨⟨by omega, by omega⟩, ?_⟩
    have hE : utf8EncodeChar ((b - 240) * 262144 + (l.getD 0 0 - 128) * 4096
        + (l.getD 1 0 - 128) * 64 + (l.getD 2 0 - 128))
        = [b, l.getD 0 0, l.getD 1 0, l.getD 2 0] := by
      unfold utf8EncodeChar
      rw [if_neg (by omega), if_neg (by omega), if_neg (by omega)]
      simp only [List.cons.injEq, and_true]
      omega
    rw [hE]
    conv_rhs => rw [list_decomp3 l (by omega)]
    rfl

theorem utf8Decode_to_encode (bs cs : List Nat) (h : utf8Decode bs = some cs) :
    (∀ c ∈ cs, IsScalar c) ∧ cs.flatMap utf8EncodeChar = bs := by
  have main : ∀ (n : Nat) (bs cs : List Nat), bs.length ≤ n →
      utf8Decode bs = some cs →
      (∀ c ∈ cs, IsScalar c) ∧ cs.flatMap utf8EncodeChar = bs := by
    intro n
    induction n with
    | zero =>
      intro bs cs hlen hdec
      have hnil : bs = [] := List.eq_nil_of_length_eq_zero (by omega)
      subst hnil
      rw [utf8Decode_nil] at hdec
      cases hdec
      exact ⟨by simp, rfl⟩
    | succ n ih =>
      intro bs cs hlen hdec
      rcases bs with _ | ⟨b, l⟩
      · rw [utf8Decode_nil] at hdec
        cases hdec
        exact ⟨by simp, rfl⟩
      · rcases hone : utf8DecodeOne b l with _ | ⟨v, l2⟩
        · rw [utf8Decode_cons_none hone] at hdec
          exact Option.noConfusion hdec
        · rw [utf8Decode_cons_some hone] at hdec
          obtain ⟨cs2, hcs2, rfl⟩ := Option.map_eq_some'.mp hdec
          obtain ⟨hscv, henc⟩ := utf8DecodeOne_inversion hone
          have hlenenc : (utf8EncodeChar v).length + l2.length = l.length + 1 := by
            have h2 := congrArg List.length henc
            simpa using h2
          have hpos : 1 ≤ (utf8EncodeChar v).length := by
            unfold utf8EncodeChar
            split_ifs <;> simp
          have hrec := ih l2 cs2 (by simp at hlen; omega) hcs2
          refine ⟨?_, ?_⟩
          · intro x hx
            rcases List.mem_cons.mp hx with rfl | hx
            · exact hscv
            · exact hrec.1 x hx
          · rw [List.flatMap_cons, hrec.2, henc]
  exact main bs.length bs cs (le_refl _) h

theorem utf8DecodeOne_encode (c : Nat) (hc : IsScalar c) (rest : List Nat) :
    ∃ hd tl, utf8EncodeChar c = hd :: tl ∧
      utf8DecodeOne hd (tl ++ rest) = some (c, rest) := by
  obtain ⟨hlt, hsur⟩ := hc
  by_cases h1 : c ≤ 127
  · refine ⟨c, [], by rw [utf8EncodeChar, if_pos h1], ?_⟩
    unfold utf8DecodeOne
    rw [if_pos h1]
    rfl
  · by_cases h2 : c ≤ 2047
    · refine ⟨192 + c / 64, [128 + c % 64],
        by rw [utf8EncodeChar, if_neg h1, if_pos h2], ?_⟩
      unfold utf8DecodeOne
      rw [if_neg (by omega),
        if_pos (show (194 ≤ 192 + c / 64 && 192 + c / 64 ≤ 223) = true by
          simp only [Bool.and_eq_true, decide_eq_true_eq]
          omega),
        if_pos (show (1 ≤ ([128 + c % 64] ++ rest).length &&
            isUtf8Cont (([128 + c % 64] ++ rest).getD 0 0)) = true by
          simp only [List.cons_append, List.nil_append, List.length_cons,
            List.getD_cons_zero, isUtf8Cont, Bool.and_eq_true, decide_eq_true_eq]
          omega)]
      simp only [List.cons_append, List.nil_append, List.getD_cons_zero,
        List.drop_succ_cons, List.drop_zero, Option.some.injEq, Prod.mk.injEq]
      exact ⟨by omega, trivial⟩
    · by_cases h3 : c ≤ 65535
      · refine ⟨224 + c / 4096, [128 + c / 64 % 64, 128 + c % 64],
          by rw [utf8EncodeChar, if_neg h1, if_neg h2, if_pos h3], ?_⟩
        unfold utf8DecodeOne
        rw [if_neg (by omega),
          if_neg (show ¬((194 ≤ 224 + c / 4096 && 224 + c / 4096 ≤ 223) = true) by
            simp only [Bool.and_eq_true, decide_eq_true_eq]
            omega),
          if_pos (show (224 ≤ 224 + c / 4096 && 224 + c / 4096 ≤ 239) = true by
            simp only [Bool.and_eq_true, decide_eq_true_eq]
            omega)]
        have hcond : (2 ≤ ([128 + c / 64 % 64, 128 + c % 64] ++ rest).length &&
            (if 224 + c / 4096 = 224 then
              160 ≤ ([128 + c / 64 % 64, 128 + c % 64] ++ rest).getD 0 0 &&
                ([128 + c / 64 % 64, 128 + c % 64] ++ rest).getD 0 0 ≤ 191
             else if 224 + c / 4096 = 237 then
              128 ≤ ([128 + c / 64 % 64, 128 + c % 64] ++ rest).getD 0 0 &&
                ([128 + c / 64 % 64, 128 + c % 64] ++ rest).getD 0 0 ≤ 159
             else isUtf8Cont (([128 + c / 64 % 64, 128 + c % 64] ++ rest).getD 0 0))
            && isUtf8Cont (([128 + c / 64 % 64, 128 + c % 64] ++ rest).getD 1 0))
            = true := by
          simp only [List.cons_append, List.nil_append, List.length_cons,
            List.getD_cons_zero, List.getD_cons_succ, isUtf8Cont]
          by_cases hE0 : c < 4096
          · rw [if_pos (by omega)]
            simp only [Bool.and_eq_true, decide_eq_true_eq]
            omega
          · by_cases hED : 53248 ≤ c ∧ c ≤ 57343
            · rw [if_neg (by omega), if_pos (by omega)]
              simp only [Bool.and_eq_true, decide_eq_true_eq]
              omega
            · rw [if_neg (by omega), if_neg (by omega)]
              simp only [Bool.and_eq_true, decide_eq_true_eq]
              omega
        rw [if_pos hcond]
        simp only [List.cons_append, List.nil_append, List.getD_cons_zero,
          List.getD_cons_succ, List.drop_succ_cons, List.drop_zero,
          Option.some.injEq, Prod.mk.injEq]
        exact ⟨by omega, trivial⟩
      · refine ⟨240 + c / 262144,
          [128 + c / 4096 % 64, 128 + c / 64 % 64, 128 + c % 64],
          by rw [utf8EncodeChar, if_neg h1, if_neg h2, if_neg h3], ?_⟩
        unfold utf8DecodeOne
        rw [if_neg (by omega),
          if_neg (show ¬((194 ≤ 240 + c / 262144 && 240 + c / 262144 ≤ 223)
              = true) by
            simp only [Bool.and_eq_true, decide_eq_true_eq]
            omega),
          if_neg (show ¬((224 ≤ 240 + c / 262144 && 240 + c / 262144 ≤ 239)
              = true) by
            simp only [Bool.and_eq_true, decide_eq_true_eq]
            omega),
          if_pos (show (240 ≤ 240 + c / 262144 && 240 + c / 262144 ≤ 244)
              = true by
            simp only [Bool.and_eq_true, decide_eq_true_eq]
            omega)]
        have hcond : (3 ≤ ([128 + c / 4096 % 64, 128 + c / 64 % 64, 128 + c % 64]
              ++ rest).length &&
            (if 240 + c / 262144 = 240 then
              144 ≤ ([128 + c / 4096 % 64, 128 + c / 64 % 64, 128 + c % 64]
                  ++ rest).getD 0 0 &&
                ([128 + c / 4096 % 64, 128 + c / 64 % 64, 128 + c % 64]
                  ++ rest).getD 0 0 ≤ 191
             else if 240 + c / 262144 = 244 then
              128 ≤ ([128 + c / 4096 % 64, 128 + c / 64 % 64, 128 + c % 64]
                  ++ rest).getD 0 0 &&
                ([128 + c / 4096 % 64, 128 + c / 64 % 64, 128 + c % 64]
                  ++ rest).getD 0 0 ≤ 143
             else isUtf8Cont (([128 + c / 4096 % 64, 128 + c / 64 % 64,
                128 + c % 64] ++ rest).getD 0 0))
            && isUtf8Cont (([128 + c / 4096 % 64, 128 + c / 64 % 64, 128 + c % 64]
              ++ rest).getD 1 0)
            && isUtf8Cont (([128 + c / 4096 % 64, 128 + c / 64 % 64, 128 + c % 64]
              ++ rest).getD 2 0)) = true := by
          simp only [List.cons_append, List.nil_append, List.length_cons,
            List.getD_cons_zero, List.getD_cons_succ, isUtf8Cont]
          by_cases hF0 : c < 262144
          · rw [if_pos (by omega)]
            simp only [Bool.and_eq_true, decide_eq_true_eq]
            omega
          · by_cases hF4 : 1048576 ≤ c
            · rw [if_neg (by omega), if_pos (by omega)]
              simp only [Bool.and_eq_true, decide_eq_true_eq]
              omega
            · rw [if_neg (by omega), if_neg (by omega)]
              simp only [Bool.and_eq_true, decide_eq_true_eq]
              omega
        rw [if_pos hcond]
        simp only [List.cons_append, List.nil_append, List.getD_cons_zero,
          List.getD_cons_succ, List.drop_succ_cons, List.drop_zero,
          Option.some.injEq, Prod.mk.injEq]
        exact ⟨by omega, trivial⟩

theorem utf8Decode_encode_cons (c : Nat) (hc : IsScalar c) (rest : List Nat) :
    utf8Decode (utf8EncodeChar c ++ rest)
      = (utf8Decode rest).map (fun cs => c :: cs) := by
  obtain ⟨hd, tl, hE, hone⟩ := utf8DecodeOne_encode c hc rest
  rw [hE]
  show utf8Decode (hd :: (tl ++ rest)) = _
  rw [utf8Decode_cons_some hone]

theorem utf8Decode_of_encode (cs : List Nat) (h : ∀ c ∈ cs, IsScalar c) :
    utf8Decode (cs.flatMap utf8EncodeChar) = some cs := by
  induction cs with
  | nil => exact utf8Decode_nil
  | cons c cs ih =>
    rw [List.flatMap_cons, utf8Decode_encode_cons c (h c (by simp)),
      ih (fun x hx => h x (by simp [hx]))]
    rfl

/-- C9: rendering the payload as text succeeds, returning the decoded
scalar values, exactly when the payload bytes are valid UTF-8 (the
encoding of some sequence of Unicode scalar values), and fails with a
`UTF8Error` wrapping the payload otherwise; whether the payload is
valid UTF-8 has no bearing on decode-from-bytes, whose success
condition mentions only framing, letter bytes and the CRC. -/
theorem data_as_string_utf8_spec (c : Chunk) :
    ((∃ s, c.data_as_string = .ok s) ↔ IsValidUtf8 c.data) ∧
    ((c.data_as_string = .error (.UTF8Error c.data)) ↔ ¬ IsValidUtf8 c.data) ∧
    (∀ bytes : List Nat, (∃ ch, Chunk.try_from bytes = .ok ch) ↔
      DecodeCond bytes) := by
  refine ⟨?_, ?_, try_from_ok_iff⟩ <;>
    unfold Chunk.data_as_string <;>
    rcases hd : utf8Decode c.data with _ | s
  · constructor
    · rintro ⟨s, hs⟩
      exact absurd hs (by simp)
    · rintro ⟨cs, hsc, henc⟩
      rw [← henc, utf8Decode_of_encode cs hsc] at hd
      exact Option.noConfusion hd
  · constructor
    · intro _
      obtain ⟨hsc, henc⟩ := utf8Decode_to_encode _ _ hd
      exact ⟨s, hsc, henc⟩
    · intro _
      exact ⟨s, rfl⟩
  · constructor
    · intro _
      rintro ⟨cs, hsc, henc⟩
      rw [← henc, utf8Decode_of_encode cs hsc] at hd
      exact Option.noConfusion hd
    · intro _
      rfl
  · constructor
    · intro he
      exact absurd he (by simp)
    · intro hnv
      obtain ⟨hsc, henc⟩ := utf8Decode_to_encode _ _ hd
      exact absurd ⟨s, hsc, henc⟩ hnv

end Pngme
